import Mathlib

/-!
Verification of `jotmd.py`: a shallow embedding of the core of the
program (note renderer and journal file manager) together with proofs
about the embedded definitions.

Strings are modelled by Lean `String` (a wrapper around `List Char`);
Python string operations (`strip`, `rstrip`, `sorted`, `split`) are
embedded as executable functions on the underlying character lists.
Whitespace is modelled by the ASCII whitespace characters
(space, `\t`, `\n`, `\r`, `\x0b`, `\x0c`), which is the ASCII fragment of
Python's `str.strip` / regex `\s` character classes.  The regex character
classes `[A-Z]` and `\d` of the source are modelled as the ASCII ranges
`A`-`Z` and `0`-`9` (the patterns' literal ranges).
-/

/-- ASCII whitespace, the model of Python's whitespace class used by
`str.strip`, `str.rstrip` and the regex class `\s`. -/
def pyIsSpace (c : Char) : Bool :=
  c = ' ' || c = '\t' || c = '\n' || c = '\r' || c = '\x0b' || c = '\x0c'

/-- Model of the regex character class `[A-Z]`. -/
def isUpperAZ (c : Char) : Bool := 'A' ≤ c && c ≤ 'Z'

/-- Model of the regex character class `\d` (ASCII digits). -/
def isDigit09 (c : Char) : Bool := '0' ≤ c && c ≤ '9'

/-- Python `str.rstrip` on a character list: remove the maximal run of
trailing whitespace. -/
def rstripL (l : List Char) : List Char := (l.reverse.dropWhile pyIsSpace).reverse

/-- Python `str.lstrip` on a character list. -/
def lstripL (l : List Char) : List Char := l.dropWhile pyIsSpace

/-- Python `str.strip` on a character list. -/
def stripL (l : List Char) : List Char := rstripL (lstripL l)

/-- Python `s.rstrip()`. -/
def pyRstrip (s : String) : String := ⟨rstripL s.data⟩

/-- Python `s.strip()`. -/
def pyStrip (s : String) : String := ⟨stripL s.data⟩

theorem rstripL_initial (l : List Char) : rstripL l <+: l := by
  have h := List.dropWhile_suffix (l := l.reverse) pyIsSpace
  have := List.reverse_prefix.mpr h
  simpa [rstripL] using this

theorem rstripL_sublist (l : List Char) : (rstripL l).Sublist l :=
  (rstripL_initial l).sublist

theorem rstripL_subset {l : List Char} : ∀ c ∈ rstripL l, c ∈ l :=
  fun _ hc => (rstripL_sublist l).subset hc

theorem rstripL_eq_nil_iff {l : List Char} :
    rstripL l = [] ↔ ∀ c ∈ l, pyIsSpace c = true := by
  constructor
  · intro h c hc
    have : l.reverse.dropWhile pyIsSpace = [] := by
      have := congrArg List.reverse h
      simpa [rstripL] using this
    exact List.dropWhile_eq_nil_iff.mp this c (List.mem_reverse.mpr hc)
  · intro h
    have : l.reverse.dropWhile pyIsSpace = [] :=
      List.dropWhile_eq_nil_iff.mpr fun c hc => h c (List.mem_reverse.mp hc)
    simp [rstripL, this]

theorem rstripL_append_of_not_space {l r : List Char}
    (h : ∃ c ∈ r, pyIsSpace c = false) : rstripL (l ++ r) = l ++ rstripL r := by
  unfold rstripL
  rw [List.reverse_append, List.dropWhile_append]
  have hne : ¬ (r.reverse.dropWhile pyIsSpace).isEmpty = true := by
    rw [List.isEmpty_iff]
    intro hnil
    obtain ⟨c, hc, hcs⟩ := h
    have := List.dropWhile_eq_nil_iff.mp hnil c (List.mem_reverse.mpr hc)
    simp [this] at hcs
  rw [if_neg hne, List.reverse_append]
  simp

theorem rstripL_append_all_space {l r : List Char}
    (h : ∀ c ∈ r, pyIsSpace c = true) : rstripL (l ++ r) = rstripL l := by
  unfold rstripL
  rw [List.reverse_append, List.dropWhile_append]
  have hnil : r.reverse.dropWhile pyIsSpace = [] :=
    List.dropWhile_eq_nil_iff.mpr fun c hc => h c (List.mem_reverse.mp hc)
  simp [hnil]

theorem rstripL_eq_self_of_last {l : List Char} {c : Char}
    (hlast : l.getLast? = some c) (hc : pyIsSpace c = false) : rstripL l = l := by
  obtain ⟨l', rfl⟩ : ∃ l', l = l' ++ [c] := by
    rcases List.eq_nil_or_concat l with rfl | ⟨l', d, rfl⟩
    · simp at hlast
    · rw [List.concat_eq_append] at hlast ⊢
      have hdc : d = c := by simpa using hlast
      exact ⟨l', by rw [hdc]⟩
  rw [rstripL_append_of_not_space ⟨c, by simp, hc⟩]
  simp [rstripL, List.dropWhile, hc]

theorem rstripL_last_not_space {l : List Char} {c : Char}
    (h : (rstripL l).getLast? = some c) : pyIsSpace c = false := by
  have hh : (l.reverse.dropWhile pyIsSpace).head? = some c := by
    rw [← List.getLast?_reverse]
    simpa [rstripL] using h
  rcases hd : l.reverse.dropWhile pyIsSpace with _ | ⟨b, bs⟩
  · rw [hd] at hh; simp at hh
  · have hb : pyIsSpace b = false := by
      have hw := List.head?_dropWhile_not pyIsSpace l.reverse
      rw [hd] at hw; simpa using hw
    rw [hd] at hh
    simp only [List.head?_cons, Option.some_inj] at hh
    exact hh ▸ hb

theorem rstripL_idem (l : List Char) : rstripL (rstripL l) = rstripL l := by
  rcases hlast : (rstripL l).getLast? with _ | c
  · rw [List.getLast?_eq_none_iff.mp hlast]; rfl
  · exact rstripL_eq_self_of_last hlast (rstripL_last_not_space hlast)

theorem rstripL_head? {l : List Char} (h : rstripL l ≠ []) :
    (rstripL l).head? = l.head? := by
  obtain ⟨t, ht⟩ := rstripL_initial l
  cases hr : rstripL l with
  | nil => exact absurd hr h
  | cons a as => rw [hr] at ht; rw [← ht]; simp

theorem lstripL_head_not_space {l : List Char} {c : Char}
    (h : (lstripL l).head? = some c) : pyIsSpace c = false := by
  have hw := List.head?_dropWhile_not pyIsSpace l
  rw [show List.dropWhile pyIsSpace l = lstripL l from rfl, h] at hw
  simpa using hw

theorem lstripL_idem (l : List Char) : lstripL (lstripL l) = lstripL l := by
  cases h : lstripL l with
  | nil => rfl
  | cons a as =>
    have ha : pyIsSpace a = false :=
      lstripL_head_not_space (c := a) (by rw [h]; rfl)
    simp [lstripL, List.dropWhile_cons, ha]

theorem rstripL_lstripL_comm (l : List Char) :
    rstripL (lstripL l) = lstripL (rstripL (lstripL l)) := by
  cases h : rstripL (lstripL l) with
  | nil => rfl
  | cons a as =>
    have hh : (rstripL (lstripL l)).head? = (lstripL l).head? := by
      apply rstripL_head?; rw [h]; simp
    have ha : pyIsSpace a = false := by
      apply lstripL_head_not_space (l := l) (c := a)
      rw [← hh, h]; rfl
    simp [lstripL, List.dropWhile_cons, ha]

theorem stripL_idem (l : List Char) : stripL (stripL l) = stripL l := by
  unfold stripL
  rw [← rstripL_lstripL_comm l, rstripL_idem]

theorem stripL_sublist (l : List Char) : (stripL l).Sublist l :=
  (rstripL_sublist _).trans (List.dropWhile_sublist _)

theorem stripL_subset {l : List Char} : ∀ c ∈ stripL l, c ∈ l :=
  fun _ hc => (stripL_sublist l).subset hc

/-! Lexicographic comparison (Python string `<=`, by code points) -/

/-- Boolean lexicographic "less or equal" on character lists, by code
points; this is the comparison Python's `sorted` uses on strings. -/
def lexLe : List Char → List Char → Bool
  | [], _ => true
  | _ :: _, [] => false
  | a :: as, b :: bs => if a < b then true else if b < a then false else lexLe as bs

/-- The sorting relation on strings: code-point lexicographic order. -/
def strLe (a b : String) : Prop := lexLe a.data b.data = true

instance : DecidableRel strLe := fun a b =>
  inferInstanceAs (Decidable (lexLe a.data b.data = true))

theorem lexLe_iff_not_lex (x y : List Char) :
    lexLe x y = true ↔ ¬ List.Lex (· < ·) y x := by
  induction x generalizing y with
  | nil =>
    simp only [lexLe]
    constructor
    · intro _ h; cases h
    · intro _; trivial
  | cons a as ih =>
    cases y with
    | nil =>
      simp only [lexLe]
      constructor
      · intro h; cases h
      · intro h; exact absurd (List.Lex.nil) h
    | cons b bs =>
      simp only [lexLe]
      rcases lt_trichotomy a b with hab | hab | hab
      · rw [if_pos hab]
        constructor
        · intro _ h
          cases h with
          | rel h => exact absurd hab (lt_asymm h)
          | cons h => exact absurd hab (lt_irrefl _)
        · intro _; rfl
      · subst hab
        rw [if_neg (lt_irrefl a), if_neg (lt_irrefl a)]
        rw [ih bs]
        constructor
        · intro h hl
          cases hl with
          | rel hr => exact absurd hr (lt_irrefl _)
          | cons hl => exact h hl
        · intro h hl; exact h (List.Lex.cons hl)
      · rw [if_neg (lt_asymm hab), if_pos hab]
        constructor
        · intro h; cases h
        · intro h; exact absurd (List.Lex.rel hab) h

theorem strLe_iff_le {a b : String} : strLe a b ↔ a ≤ b := by
  rw [strLe, lexLe_iff_not_lex, String.le_iff_toList_le, ← not_lt]
  constructor
  · intro h hlt
    exact h hlt
  · intro h hlex
    exact h hlex

instance : IsTrans String strLe :=
  ⟨fun _ _ _ hab hbc =>
    strLe_iff_le.mpr (le_trans (strLe_iff_le.mp hab) (strLe_iff_le.mp hbc))⟩

instance : IsAntisymm String strLe :=
  ⟨fun _ _ hab hba => le_antisymm (strLe_iff_le.mp hab) (strLe_iff_le.mp hba)⟩

instance : IsTotal String strLe :=
  ⟨fun a b => by
    rcases le_total a b with h | h
    · exact Or.inl (strLe_iff_le.mpr h)
    · exact Or.inr (strLe_iff_le.mpr h)⟩

/-- Python's `sorted` on a list of strings (ascending code-point
lexicographic order; any correct sort of this total order agrees with
Python's stable sort, because equal keys are identical strings). -/
def pySorted (l : List String) : List String := l.insertionSort strLe

theorem pySorted_perm (l : List String) : (pySorted l).Perm l :=
  List.perm_insertionSort strLe l

theorem pySorted_sorted (l : List String) : List.Sorted (· ≤ ·) (pySorted l) :=
  (List.sorted_insertionSort strLe l).imp fun h => strLe_iff_le.mp h

/-! Tag classification (`is_ticket`) -/

/-- Function `is_ticket` of `jotmd.py`: `re.fullmatch(r"[A-Z]{2,}-\d+", tag)`.
Because `-` is neither an uppercase letter nor a digit, the backtracking
regex is equivalent to this deterministic scan: a maximal run of
uppercase letters (at least two), then `-`, then one or more digits and
nothing else. -/
def is_ticket (tag : String) : Bool :=
  let letters := tag.data.takeWhile isUpperAZ
  let rest := tag.data.dropWhile isUpperAZ
  decide (2 ≤ letters.length) &&
    match rest with
    | '-' :: ds => !ds.isEmpty && ds.all isDigit09
    | _ => false

/-- Modelled from the spec: a ticket-like tag is "two-or-more uppercase
letters, a hyphen, one-or-more digits" (`^[A-Z]{2,}-\d+$`), stated
structurally, independent of the scanning implementation. -/
def TicketShape (tag : String) : Prop :=
  ∃ a b : List Char, tag.data = a ++ '-' :: b ∧ 2 ≤ a.length ∧
    (∀ c ∈ a, isUpperAZ c = true) ∧ b ≠ [] ∧ ∀ c ∈ b, isDigit09 c = true

theorem mem_of_head?_eq {α : Type _} {l : List α} {a : α}
    (h : l.head? = some a) : a ∈ l := by
  cases l with
  | nil => simp at h
  | cons b bs =>
    simp only [List.head?_cons, Option.some_inj] at h
    exact h ▸ List.mem_cons_self b bs

theorem is_ticket_iff_ticketShape (tag : String) :
    is_ticket tag = true ↔ TicketShape tag := by
  constructor
  · intro h
    simp only [is_ticket, Bool.and_eq_true, decide_eq_true_eq] at h
    obtain ⟨hlen, hrest⟩ := h
    rcases hd : tag.data.dropWhile isUpperAZ with _ | ⟨c, ds⟩
    · rw [hd] at hrest; simp at hrest
    · rw [hd] at hrest
      have hc : c = '-' := by
        by_contra hne
        have : (match c :: ds with
            | '-' :: ds => !ds.isEmpty && ds.all isDigit09
            | _ => false) = false := by
          cases c <;> first | rfl | (rename_i v hv; revert hrest; split <;> simp_all)
        rw [this] at hrest; exact Bool.false_ne_true hrest
      subst hc
      simp only [Bool.and_eq_true, Bool.not_eq_true', List.isEmpty_iff,
        List.all_eq_true] at hrest
      have hdsne : ds ≠ [] := by
        intro hnil
        rw [hnil] at hrest
        simp at hrest
      refine ⟨tag.data.takeWhile isUpperAZ, ds, ?_, hlen, ?_, hdsne, hrest.2⟩
      · rw [← hd, List.takeWhile_append_dropWhile]
      · intro c hc; exact List.mem_takeWhile_imp hc
  · rintro ⟨a, b, heq, hlen, ha, hb, hdig⟩
    have hta : a.takeWhile isUpperAZ = a := List.takeWhile_eq_self_iff.mpr ha
    have htake : tag.data.takeWhile isUpperAZ = a := by
      rw [heq, List.takeWhile_append, hta, if_pos rfl]
      have : isUpperAZ '-' = false := by decide
      simp [List.takeWhile_cons, this]
    have hdrop : tag.data.dropWhile isUpperAZ = '-' :: b := by
      rw [heq, List.dropWhile_append]
      have hnil : a.dropWhile isUpperAZ = [] := List.dropWhile_eq_nil_iff.mpr ha
      have : isUpperAZ '-' = false := by decide
      simp [hnil, List.dropWhile_cons, this]
    simp only [is_ticket, htake, hdrop, Bool.and_eq_true, decide_eq_true_eq]
    refine ⟨hlen, ?_⟩
    simp only [Bool.and_eq_true, Bool.not_eq_true', List.all_eq_true]
    constructor
    · cases b with
      | nil => exact absurd rfl hb
      | cons x xs => rfl
    · exact hdig

/-! Dates and `strftime("%m/%d/%Y")` -/

/-- The decimal digit character of `n < 10`. -/
def digitChar09 (n : Nat) : Char := Char.ofNat (48 + n)

/-- Decimal rendering of a natural number, most significant digit first
(model of Python `str(n)` and of `strftime` numeric fields); the first
argument is recursion fuel (`n + 1` suffices since `n / 10 < n`). -/
def natToStrAux : Nat → Nat → List Char
  | 0, _ => []
  | fuel + 1, n =>
    if n < 10 then [digitChar09 n]
    else natToStrAux fuel (n / 10) ++ [digitChar09 (n % 10)]

/-- Python `str(n)` for a natural number. -/
def natToStr (n : Nat) : String := ⟨natToStrAux (n + 1) n⟩

/-- Zero-padded two-digit `strftime` numeric field (`%m`, `%d`). -/
def pad2 (n : Nat) : String := if n < 10 then "0" ++ natToStr n else natToStr n

/-- A calendar date as the core receives it from the CLI layer. -/
structure Date where
  year : Nat
  month : Nat
  day : Nat

/-- The ranges `datetime` admits (`MINYEAR = 1`, `MAXYEAR = 9999`). -/
def Date.Valid (d : Date) : Prop :=
  1 ≤ d.year ∧ d.year ≤ 9999 ∧ 1 ≤ d.month ∧ d.month ≤ 12 ∧ 1 ≤ d.day ∧ d.day ≤ 31

/-- Formatting `dt.strftime(DATE_HEADER_FMT)`, i.e. `MM/DD/YYYY`. -/
def formatDate (d : Date) : String :=
  pad2 d.month ++ "/" ++ pad2 d.day ++ "/" ++ natToStr d.year

theorem digitChar09_isDigit {n : Nat} (h : n < 10) :
    isDigit09 (digitChar09 n) = true := by
  interval_cases n <;> decide

theorem natToStrAux_digits (fuel n : Nat) :
    ∀ c ∈ natToStrAux fuel n, isDigit09 c = true := by
  induction fuel generalizing n with
  | zero => intro c hc; simp [natToStrAux] at hc
  | succ fuel ih =>
    intro c hc
    rw [natToStrAux] at hc
    split at hc
    · rename_i h
      simp only [List.mem_singleton] at hc
      exact hc ▸ digitChar09_isDigit h
    · rcases List.mem_append.mp hc with hc | hc
      · exact ih _ c hc
      · simp only [List.mem_singleton] at hc
        exact hc ▸ digitChar09_isDigit (Nat.mod_lt _ (by norm_num))

theorem natToStr_digits (n : Nat) : ∀ c ∈ (natToStr n).data, isDigit09 c = true :=
  natToStrAux_digits (n + 1) n

theorem natToStr_ne_nil (n : Nat) : (natToStr n).data ≠ [] := by
  show natToStrAux (n + 1) n ≠ []
  rw [natToStrAux]
  split <;> simp

theorem pad2_head_digit (n : Nat) :
    ∃ c, (pad2 n).data.head? = some c ∧ isDigit09 c = true := by
  unfold pad2
  split
  · exact ⟨'0', by simp [String.data_append], by decide⟩
  · rcases hd : (natToStr n).data with _ | ⟨c, cs⟩
    · exact absurd hd (natToStr_ne_nil n)
    · refine ⟨c, by simp [hd], ?_⟩
      exact natToStr_digits n c (by rw [hd]; exact List.mem_cons_self c cs)

theorem pad2_digits (n : Nat) : ∀ c ∈ (pad2 n).data, isDigit09 c = true := by
  unfold pad2
  split
  · intro c hc
    rw [String.data_append] at hc
    rcases List.mem_append.mp hc with hc | hc
    · simp only [show ("0" : String).data = ['0'] from rfl, List.mem_singleton] at hc
      subst hc; decide
    · exact natToStr_digits n c hc
  · exact natToStr_digits n

/-- The character-level facts about a formatted date that the header
matcher relies on: nonempty, first character a digit, and every
character a digit or a slash. -/
def DateLike (w : List Char) : Prop :=
  w ≠ [] ∧ (∀ c ∈ w, isDigit09 c = true ∨ c = '/') ∧
    ∃ c, w.head? = some c ∧ isDigit09 c = true

theorem formatDate_dateLike (d : Date) : DateLike (formatDate d).data := by
  unfold formatDate
  obtain ⟨c0, hc0, hdig0⟩ := pad2_head_digit d.month
  refine ⟨?_, ?_, ?_⟩
  · simp only [String.data_append]
    intro h
    rcases List.append_eq_nil.mp h with ⟨h1, h2⟩
    rcases List.append_eq_nil.mp h1 with ⟨h3, _⟩
    rcases List.append_eq_nil.mp h3 with ⟨h5, _⟩
    rcases List.append_eq_nil.mp h5 with ⟨h7, h8⟩
    exact absurd h2 (natToStr_ne_nil d.year)
  · simp only [String.data_append]
    intro c hc
    simp only [List.mem_append] at hc
    rcases hc with ((((hc | hc) | hc) | hc) | hc)
    · exact Or.inl (pad2_digits d.month c hc)
    · exact Or.inr (by simpa using hc)
    · exact Or.inl (pad2_digits d.day c hc)
    · exact Or.inr (by simpa using hc)
    · exact Or.inl (natToStr_digits d.year c hc)
  · refine ⟨c0, ?_, hdig0⟩
    simp only [String.data_append, List.head?_append]
    rcases hp : (pad2 d.month).data with _ | ⟨b, bs⟩
    · rw [hp] at hc0; simp at hc0
    · rw [hp] at hc0; simpa using hc0

/-! The note renderer (`render_note_lines`) -/

/-- The `RenderedLines` dataclass of `jotmd.py`. -/
structure RenderedLines where
  lines : List String
deriving DecidableEq

/-- Line 48 of `jotmd.py`:
`tags = [t.strip() for t in tags if t and t.strip()]`. -/
def cleanTags (tags : List String) : List String :=
  (tags.filter fun t => !t.data.isEmpty && !(pyStrip t).data.isEmpty).map pyStrip

/-- Function `render_note_lines` of `jotmd.py` (lines 39-66): a single bullet if
no tag survives cleaning, otherwise the sorted person-tag lines followed
by the sorted ticket line pairs. -/
def render_note_lines (message : String) (tags : List String) : RenderedLines :=
  let tags2 := cleanTags tags
  if tags2.isEmpty then ⟨[pyRstrip ("* " ++ message)]⟩
  else
    let person_like := pySorted (tags2.filter fun t => !(is_ticket t))
    let tickets := pySorted (tags2.filter fun t => is_ticket t)
    ⟨(person_like.map fun t => pyRstrip ("* " ++ t ++ ": " ++ message)) ++
      tickets.flatMap fun t => ["* " ++ t, pyRstrip ("    * " ++ message)]⟩

theorem render_note_lines_of_nil {m : String} {tags : List String}
    (h : cleanTags tags = []) :
    (render_note_lines m tags).lines = [pyRstrip ("* " ++ m)] := by
  rw [render_note_lines]
  simp [h]

theorem render_note_lines_of_ne_nil {m : String} {tags : List String}
    (h : cleanTags tags ≠ []) :
    (render_note_lines m tags).lines =
      ((pySorted ((cleanTags tags).filter fun t => !(is_ticket t))).map
          fun t => pyRstrip ("* " ++ t ++ ": " ++ m)) ++
        (pySorted ((cleanTags tags).filter fun t => is_ticket t)).flatMap
          fun t => ["* " ++ t, pyRstrip ("    * " ++ m)] := by
  rw [render_note_lines]
  simp only [List.isEmpty_iff]
  rw [if_neg h]

theorem pyRstrip_append {x y : String} (h : ∃ c ∈ y.data, pyIsSpace c = false) :
    pyRstrip (x ++ y) = x ++ pyRstrip y := by
  apply String.ext
  simp [pyRstrip, String.data_append, rstripL_append_of_not_space h]

theorem string_append_assoc (x y z : String) : x ++ y ++ z = x ++ (y ++ z) := by
  apply String.ext
  simp [String.data_append]

/-- The person-tag line splits off the untouched `* TAG` part: `rstrip`
only ever removes characters after the colon. -/
theorem personLine_eq (t m : String) :
    pyRstrip ("* " ++ t ++ ": " ++ m) = ("* " ++ t) ++ pyRstrip (": " ++ m) := by
  rw [string_append_assoc ("* " ++ t) ": " m]
  exact pyRstrip_append ⟨':', by simp [String.data_append], by decide⟩

theorem personLine_injective (m : String) :
    Function.Injective fun t => pyRstrip ("* " ++ t ++ ": " ++ m) := by
  intro t1 t2 heq
  simp only [personLine_eq] at heq
  have hd := congrArg String.data heq
  simp only [String.data_append] at hd
  apply String.ext
  have h2 := List.append_cancel_right hd
  exact List.append_cancel_left h2

theorem personLine_head (t m : String) :
    (pyRstrip ("* " ++ t ++ ": " ++ m)).data.head? = some '*' := by
  rw [personLine_eq]
  simp [String.data_append]

theorem colon_rstrip_head (m : String) :
    (pyRstrip (": " ++ m)).data.head? = some ':' := by
  show (rstripL ((": " ++ m).data)).head? = some ':'
  have hne : rstripL ((": " ++ m).data) ≠ [] := by
    intro hnil
    have := rstripL_eq_nil_iff.mp hnil ':' (by simp [String.data_append])
    exact absurd this (by decide)
  rw [rstripL_head? hne]
  simp [String.data_append]

theorem colon_mem_personLine (t m : String) :
    ':' ∈ (pyRstrip ("* " ++ t ++ ": " ++ m)).data := by
  rw [personLine_eq]
  rw [String.data_append]
  apply List.mem_append.mpr
  exact Or.inr (mem_of_head?_eq (colon_rstrip_head m))

theorem subbullet_head (m : String) :
    (pyRstrip ("    * " ++ m)).data.head? = some ' ' := by
  show (rstripL (("    * " ++ m).data)).head? = some ' '
  have hne : rstripL (("    * " ++ m).data) ≠ [] := by
    intro hnil
    have := rstripL_eq_nil_iff.mp hnil '*' (by simp [String.data_append])
    exact absurd this (by decide)
  rw [rstripL_head? hne]
  simp [String.data_append]

theorem noTagLine_head (m : String) :
    (pyRstrip ("* " ++ m)).data.head? = some '*' := by
  show (rstripL (("* " ++ m).data)).head? = some '*'
  have hne : rstripL (("* " ++ m).data) ≠ [] := by
    intro hnil
    have := rstripL_eq_nil_iff.mp hnil '*' (by simp [String.data_append])
    exact absurd this (by decide)
  rw [rstripL_head? hne]
  simp [String.data_append]

theorem ticket_no_colon {s : String} (h : is_ticket s = true) : ':' ∉ s.data := by
  obtain ⟨a, b, heq, _, ha, _, hb⟩ := (is_ticket_iff_ticketShape s).mp h
  rw [heq]
  intro hmem
  rcases List.mem_append.mp hmem with hmem | hmem
  · have := ha ':' hmem; simp [isUpperAZ] at this
  · rcases List.mem_cons.mp hmem with hmem | hmem
    · exact absurd hmem.symm (by decide)
    · have := hb ':' hmem; simp [isDigit09] at this

theorem colon_not_mem_ticketLine {s : String} (h : is_ticket s = true) :
    ':' ∉ ("* " ++ s).data := by
  rw [String.data_append]
  intro hmem
  rcases List.mem_append.mp hmem with hmem | hmem
  · simp [show ("* " : String).data = ['*', ' '] from rfl] at hmem
  · exact ticket_no_colon h hmem

theorem cleanTags_eq_map_filter (tags : List String) :
    cleanTags tags = (tags.map pyStrip).filter fun t => !t.data.isEmpty := by
  unfold cleanTags
  rw [List.filter_map]
  congr 1
  apply List.filter_congr
  intro t _
  show (!t.data.isEmpty && !(pyStrip t).data.isEmpty) = !(pyStrip t).data.isEmpty
  cases ht : t.data with
  | nil =>
    have : (pyStrip t).data = [] := by
      show stripL t.data = []
      rw [ht]; rfl
    simp [this]
  | cons a as => simp [ht]

theorem mem_cleanTags {t : String} {tags : List String} (h : t ∈ cleanTags tags) :
    pyStrip t = t ∧ t.data ≠ [] := by
  unfold cleanTags at h
  obtain ⟨t0, ht0, rfl⟩ := List.mem_map.mp h
  have hp := (List.mem_filter.mp ht0).2
  simp only [Bool.and_eq_true, Bool.not_eq_true'] at hp
  constructor
  · apply String.ext
    show stripL (stripL t0.data) = stripL t0.data
    exact stripL_idem t0.data
  · intro hnil
    rw [hnil] at hp
    simp at hp

theorem cleanTags_idem (tags : List String) :
    cleanTags (cleanTags tags) = cleanTags tags := by
  have hf : ((cleanTags tags).filter fun t => !t.data.isEmpty && !(pyStrip t).data.isEmpty)
      = cleanTags tags := by
    apply List.filter_eq_self.mpr
    intro t ht
    obtain ⟨hs, hne⟩ := mem_cleanTags ht
    rw [hs]
    cases hd : t.data with
    | nil => exact absurd hd hne
    | cons a as => simp [hd]
  show ((cleanTags tags).filter
      fun t => !t.data.isEmpty && !(pyStrip t).data.isEmpty).map pyStrip = cleanTags tags
  rw [hf]
  have : ∀ t ∈ cleanTags tags, pyStrip t = t := fun t ht => (mem_cleanTags ht).1
  calc (cleanTags tags).map pyStrip = (cleanTags tags).map id :=
        List.map_congr_left fun t ht => this t ht
    _ = cleanTags tags := List.map_id _

/-- C9. `render` first trims each tag and discards empty or
whitespace-only tags before any other processing (so rendering depends on
the input tags only through the cleaned tag list); if the resulting tag
list is empty, the output is exactly one line `* <message>` with trailing
whitespace stripped, and in particular `render(m, [])` is that single
line. -/
theorem render_trims_tags_and_empty_case :
    (∀ tags : List String,
      cleanTags tags = (tags.map pyStrip).filter fun t => !t.data.isEmpty) ∧
    (∀ (m : String) (tags : List String),
      render_note_lines m tags = render_note_lines m (cleanTags tags)) ∧
    (∀ (m : String) (tags : List String), cleanTags tags = [] →
      (render_note_lines m tags).lines = [pyRstrip ("* " ++ m)]) ∧
    (∀ m : String, (render_note_lines m []).lines = [pyRstrip ("* " ++ m)]) := by
  refine ⟨cleanTags_eq_map_filter, ?_, ?_, ?_⟩
  · intro m tags
    unfold render_note_lines
    rw [cleanTags_idem]
  · intro m tags h
    exact render_note_lines_of_nil h
  · intro m
    exact render_note_lines_of_nil rfl

theorem render_trims_tags_and_empty_case_witness :
    cleanTags ["  "] = [] ∧
      (render_note_lines "buy milk" ["  "]).lines = [pyRstrip ("* " ++ "buy milk")] :=
  ⟨by decide, render_trims_tags_and_empty_case.2.2.1 "buy milk" ["  "] (by decide)⟩

/-- C3. Rendering is invariant under permutation of the tag list:
any two permutations of the same tag multiset produce the identical
ordered sequence of output lines (the claim's non-empty case is the
special case of this statement for non-empty lists). -/
theorem render_note_lines_perm_invariant (m : String) {tags1 tags2 : List String}
    (h : tags1.Perm tags2) : render_note_lines m tags1 = render_note_lines m tags2 := by
  have hc : (cleanTags tags1).Perm (cleanTags tags2) := (h.filter _).map _
  by_cases he : (cleanTags tags1).isEmpty = true
  · have he2 : (cleanTags tags2).isEmpty = true := by
      rw [List.isEmpty_iff_length_eq_zero] at he ⊢
      rw [← hc.length_eq]; exact he
    rw [render_note_lines, render_note_lines]
    simp only [if_pos he, if_pos he2]
  · have he2 : ¬ (cleanTags tags2).isEmpty = true := by
      rw [List.isEmpty_iff_length_eq_zero] at he ⊢
      rw [← hc.length_eq]; exact he
    have hp : pySorted ((cleanTags tags1).filter fun t => !(is_ticket t)) =
        pySorted ((cleanTags tags2).filter fun t => !(is_ticket t)) :=
      List.eq_of_perm_of_sorted
        ((pySorted_perm _).trans ((hc.filter _).trans (pySorted_perm _).symm))
        (List.sorted_insertionSort _ _) (List.sorted_insertionSort _ _)
    have ht : pySorted ((cleanTags tags1).filter fun t => is_ticket t) =
        pySorted ((cleanTags tags2).filter fun t => is_ticket t) :=
      List.eq_of_perm_of_sorted
        ((pySorted_perm _).trans ((hc.filter _).trans (pySorted_perm _).symm))
        (List.sorted_insertionSort _ _) (List.sorted_insertionSort _ _)
    rw [render_note_lines, render_note_lines]
    simp only [if_neg he, if_neg he2, hp, ht]

theorem render_note_lines_perm_invariant_witness :
    (["DT-7", "Bob"] : List String).Perm ["Bob", "DT-7"] ∧
      render_note_lines "m" ["DT-7", "Bob"] = render_note_lines "m" ["Bob", "DT-7"] := by
  have hp : (["DT-7", "Bob"] : List String).Perm ["Bob", "DT-7"] := List.Perm.swap _ _ _
  exact ⟨hp, render_note_lines_perm_invariant "m" hp⟩

theorem pyRstrip_eq_self_of_last {m : String} {c : Char}
    (hlast : m.data.getLast? = some c) (hc : pyIsSpace c = false) :
    pyRstrip m = m :=
  String.ext (rstripL_eq_self_of_last hlast hc)

theorem last_not_space_of_pyRstrip {m : String} (hne : m ≠ "")
    (hr : pyRstrip m = m) : ∃ c, m.data.getLast? = some c ∧ pyIsSpace c = false := by
  have hd : rstripL m.data = m.data := congrArg String.data hr
  cases hlast : m.data.getLast? with
  | none =>
    have : m.data = [] := List.getLast?_eq_none_iff.mp hlast
    exact absurd (String.ext this) hne
  | some c =>
    refine ⟨c, rfl, ?_⟩
    by_contra hws
    rw [Bool.not_eq_false] at hws
    obtain ⟨l', hsplit⟩ : ∃ l', m.data = l' ++ [c] := by
      rcases List.eq_nil_or_concat m.data with hnil | ⟨l', d, hcat⟩
      · rw [hnil] at hlast; simp at hlast
      · rw [hcat, List.concat_eq_append, List.getLast?_concat] at hlast
        exact ⟨l', by rw [hcat, List.concat_eq_append, Option.some_inj.mp hlast]⟩
    rw [hsplit, rstripL_append_all_space (by simpa using hws)] at hd
    have hlen := congrArg List.length hd
    have hle := (rstripL_initial l').length_le
    simp [List.length_append] at hlen
    omega

/-- When the (nonempty) message carries no trailing whitespace — the
caller strips it before calling, per the spec — the produced lines keep
the message verbatim. -/
theorem personLine_verbatim (t m : String) (hne : m ≠ "") (hr : pyRstrip m = m) :
    pyRstrip ("* " ++ t ++ ": " ++ m) = "* " ++ t ++ ": " ++ m := by
  obtain ⟨c, hlast, hc⟩ := last_not_space_of_pyRstrip hne hr
  apply pyRstrip_eq_self_of_last (c := c) _ hc
  have hmne : m.data ≠ [] := by
    intro hnil; exact hne (String.ext hnil)
  simp only [String.data_append, List.getLast?_append]
  rw [hlast]; rfl

theorem subbullet_verbatim (m : String) (hne : m ≠ "") (hr : pyRstrip m = m) :
    pyRstrip ("    * " ++ m) = "    * " ++ m := by
  obtain ⟨c, hlast, hc⟩ := last_not_space_of_pyRstrip hne hr
  apply pyRstrip_eq_self_of_last (c := c) _ hc
  simp only [String.data_append, List.getLast?_append]
  rw [hlast]; rfl

/-- C1. For a tag list in which at least one tag survives trimming,
`render` emits first one `* <TAG>: <message>` line per person-like tag in
ascending lexicographic order, then per ticket-like tag in ascending
lexicographic order the pair `* <TICKET>` and `    * <message>` (four
spaces then `* `); each produced line is trailing-whitespace-stripped,
so the lines have these literal shapes whenever the message is nonempty
with no trailing whitespace (which the caller guarantees).  Includes the
claim's concrete example. -/
theorem render_note_lines_sorted_structure :
    (∀ (m : String) (tags : List String), cleanTags tags ≠ [] →
      ∃ P T : List String,
        P.Perm ((cleanTags tags).filter fun t => !(is_ticket t)) ∧
        T.Perm ((cleanTags tags).filter fun t => is_ticket t) ∧
        List.Sorted (· ≤ ·) P ∧ List.Sorted (· ≤ ·) T ∧
        (render_note_lines m tags).lines =
          (P.map fun t => pyRstrip ("* " ++ t ++ ": " ++ m)) ++
            T.flatMap (fun t => ["* " ++ t, pyRstrip ("    * " ++ m)]) ∧
        (m ≠ "" → pyRstrip m = m →
          (render_note_lines m tags).lines =
            (P.map fun t => "* " ++ t ++ ": " ++ m) ++
              T.flatMap (fun t => ["* " ++ t, "    * " ++ m]))) ∧
    (render_note_lines "sync" ["Chris", "DT-99", "alice"]).lines =
      ["* Chris: sync", "* alice: sync", "* DT-99", "    * sync"] := by
  constructor
  · intro m tags h
    refine ⟨pySorted ((cleanTags tags).filter fun t => !(is_ticket t)),
      pySorted ((cleanTags tags).filter fun t => is_ticket t),
      pySorted_perm _, pySorted_perm _, pySorted_sorted _, pySorted_sorted _,
      render_note_lines_of_ne_nil h, ?_⟩
    intro hne hr
    rw [render_note_lines_of_ne_nil h, subbullet_verbatim m hne hr]
    have hmap : (pySorted ((cleanTags tags).filter fun t => !(is_ticket t))).map
        (fun t => pyRstrip ("* " ++ t ++ ": " ++ m)) =
        (pySorted ((cleanTags tags).filter fun t => !(is_ticket t))).map
          (fun t => "* " ++ t ++ ": " ++ m) :=
      List.map_congr_left fun t _ => personLine_verbatim t m hne hr
    rw [hmap]
  · decide

theorem render_note_lines_sorted_structure_witness :
    cleanTags ["Chris", "DT-99", "alice"] ≠ [] ∧
      ∃ P T : List String,
        P.Perm ((cleanTags ["Chris", "DT-99", "alice"]).filter fun t => !(is_ticket t)) ∧
        T.Perm ((cleanTags ["Chris", "DT-99", "alice"]).filter fun t => is_ticket t) ∧
        List.Sorted (· ≤ ·) P ∧ List.Sorted (· ≤ ·) T ∧
        (render_note_lines "sync" ["Chris", "DT-99", "alice"]).lines =
          (P.map fun t => pyRstrip ("* " ++ t ++ ": " ++ "sync")) ++
            T.flatMap (fun t => ["* " ++ t, pyRstrip ("    * " ++ "sync")]) ∧
        ("sync" ≠ "" → pyRstrip "sync" = "sync" →
          (render_note_lines "sync" ["Chris", "DT-99", "alice"]).lines =
            (P.map fun t => "* " ++ t ++ ": " ++ "sync") ++
              T.flatMap (fun t => ["* " ++ t, "    * " ++ "sync"])) :=
  ⟨by decide, render_note_lines_sorted_structure.1 "sync" ["Chris", "DT-99", "alice"] (by decide)⟩

theorem star_append_inj {s t : String} (h : "* " ++ s = "* " ++ t) : s = t := by
  have hd := congrArg String.data h
  simp only [String.data_append] at hd
  exact String.ext (List.append_cancel_left hd)

theorem subbullet_ne_ticketLine (m s : String) :
    pyRstrip ("    * " ++ m) ≠ "* " ++ s := by
  intro h
  have hstar : ("* " ++ s).data.head? = some '*' := by
    rw [String.data_append]; rfl
  rw [← h, subbullet_head m] at hstar
  exact absurd (Option.some_inj.mp hstar) (by decide)

theorem personLine_ne_ticketLine {m t s : String} (hs : is_ticket s = true) :
    pyRstrip ("* " ++ t ++ ": " ++ m) ≠ "* " ++ s := by
  intro h
  have := colon_mem_personLine t m
  rw [h] at this
  exact colon_not_mem_ticketLine hs this

theorem personLine_ne_subbullet (m t m2 : String) :
    pyRstrip ("* " ++ t ++ ": " ++ m) ≠ pyRstrip ("    * " ++ m2) := by
  intro h
  have hh : (pyRstrip ("* " ++ t ++ ": " ++ m)).data.head? = some ' ' := by
    rw [h]; exact subbullet_head m2
  rw [personLine_head t m] at hh
  exact absurd (Option.some_inj.mp hh) (by decide)

theorem count_ticket_flatMap (t m : String) (l : List String) :
    (l.flatMap fun s => ["* " ++ s, pyRstrip ("    * " ++ m)]).count ("* " ++ t)
      = l.count t := by
  induction l with
  | nil => rfl
  | cons s l ih =>
    rw [List.flatMap_cons, List.count_append, ih]
    simp only [List.count_cons, List.count_nil]
    rw [if_neg (by simpa using subbullet_ne_ticketLine m t)]
    by_cases hst : s = t
    · rw [if_pos (by simp [hst]), if_pos (by simp [hst])]
      omega
    · rw [if_neg (by simpa using fun h => hst (star_append_inj h)),
        if_neg (by simpa using hst)]
      omega

theorem subbullet_ne_personLine_count (t m : String) {T : List String}
    (hT : ∀ s ∈ T, is_ticket s = true) :
    (T.flatMap fun s => ["* " ++ s, pyRstrip ("    * " ++ m)]).count
      (pyRstrip ("* " ++ t ++ ": " ++ m)) = 0 := by
  rw [List.count_eq_zero]
  intro hmem
  obtain ⟨s, hs, hmem⟩ := List.mem_flatMap.mp hmem
  rcases List.mem_cons.mp hmem with hmem | hmem
  · exact personLine_ne_ticketLine (hT s hs) hmem
  · rcases List.mem_cons.mp hmem with hmem | hmem
    · exact personLine_ne_subbullet m t m hmem
    · simp at hmem

theorem ticketLine_ne_personPart_count (t m : String) (ht : is_ticket t = true)
    (P : List String) :
    (P.map fun s => pyRstrip ("* " ++ s ++ ": " ++ m)).count ("* " ++ t) = 0 := by
  rw [List.count_eq_zero]
  intro hmem
  obtain ⟨s, _, heq⟩ := List.mem_map.mp hmem
  exact personLine_ne_ticketLine ht heq

/-- C10. Duplicate tags are not deduplicated: a tag that occurs `k`
times in the cleaned tag list contributes its rendered line(s) `k` times
— `k` identical `* <TAG>: <message>` lines for a person-like tag, and
for a ticket-like tag `k` occurrences of `* <TICKET>` inside the flat
list of `(* <TICKET>, sub-bullet)` pairs, whose driving list contains the
ticket `k` times. -/
theorem render_note_lines_no_dedup (m t : String) (tags : List String)
    (hmem : t ∈ cleanTags tags) :
    (is_ticket t = false →
      ((render_note_lines m tags).lines).count (pyRstrip ("* " ++ t ++ ": " ++ m))
        = (cleanTags tags).count t) ∧
    (is_ticket t = true →
      ((render_note_lines m tags).lines).count ("* " ++ t) = (cleanTags tags).count t ∧
      ∃ T : List String, T.Perm ((cleanTags tags).filter fun s => is_ticket s) ∧
        List.Sorted (· ≤ ·) T ∧
        (render_note_lines m tags).lines =
          ((pySorted ((cleanTags tags).filter fun s => !(is_ticket s))).map
            fun s => pyRstrip ("* " ++ s ++ ": " ++ m)) ++
            T.flatMap (fun s => ["* " ++ s, pyRstrip ("    * " ++ m)]) ∧
        T.count t = (cleanTags tags).count t) := by
  have hne : cleanTags tags ≠ [] := by
    intro h; rw [h] at hmem; exact absurd hmem (List.not_mem_nil t)
  have hT : ∀ s ∈ pySorted ((cleanTags tags).filter fun s => is_ticket s),
      is_ticket s = true := by
    intro s hs
    have := (pySorted_perm _).subset hs
    exact (List.mem_filter.mp this).2
  constructor
  · intro htf
    rw [render_note_lines_of_ne_nil hne, List.count_append]
    rw [List.count_map_of_injective _ _ (personLine_injective m) t]
    rw [subbullet_ne_personLine_count t m hT]
    rw [(pySorted_perm _).count_eq t, List.count_filter (by simp [htf])]
    omega
  · intro htt
    refine ⟨?_, pySorted ((cleanTags tags).filter fun s => is_ticket s),
      pySorted_perm _, pySorted_sorted _, render_note_lines_of_ne_nil hne, ?_⟩
    · rw [render_note_lines_of_ne_nil hne, List.count_append]
      rw [ticketLine_ne_personPart_count t m htt, count_ticket_flatMap t m]
      rw [(pySorted_perm _).count_eq t, List.count_filter (by simp [htt])]
      omega
    · rw [(pySorted_perm _).count_eq t, List.count_filter (by simp [htt])]

theorem render_note_lines_no_dedup_witness :
    ("Bob" : String) ∈ cleanTags ["Bob", "DT-7", "Bob"] ∧
      (is_ticket "Bob" = false →
        ((render_note_lines "hi" ["Bob", "DT-7", "Bob"]).lines).count
            (pyRstrip ("* " ++ "Bob" ++ ": " ++ "hi"))
          = (cleanTags ["Bob", "DT-7", "Bob"]).count "Bob") :=
  ⟨by decide, (render_note_lines_no_dedup "hi" "Bob" ["Bob", "DT-7", "Bob"] (by decide)).1⟩

/-! The journal file manager -/

/-- Python truthiness of a string (`if content:`). -/
def pyNonEmpty (s : String) : Bool := !s.data.isEmpty

/-- Python `content.endswith("\n")`. -/
def endsWithNL (s : String) : Bool := s.data.getLast? == some '\n'

/-- The pattern `\s*$` (multiline) after the matched date: the engine may stop after
consuming any prefix of the whitespace run, and `$` holds at end of
input or before a `\n`; equivalently the input is all whitespace or the
whitespace run contains a `\n`. -/
def matchesAfterDate (rest : List Char) : Bool :=
  decide (rest.dropWhile pyIsSpace = []) || (rest.takeWhile pyIsSpace).contains '\n'

/-- A match of the pattern (hash, whitespace, date, trailing) at the current position:
then `k ≥ 1` whitespace characters (any `k` within the whitespace run —
`\s` includes `\n`, so the run may cross line breaks), then the literal
formatted date, then `\s*$`. -/
def matchHashWs (fd : List Char) (cs : List Char) : Bool :=
  match cs with
  | '#' :: rest =>
    (List.range (rest.takeWhile pyIsSpace).length).any fun j =>
      decide ((rest.drop (j + 1)).take fd.length = fd) &&
        matchesAfterDate ((rest.drop (j + 1)).drop fd.length)
  | _ => false

/-- The suffixes of the input that start just after some `\n`; together
with the whole input these are the `^` positions of `re.MULTILINE`. -/
def lineStarts : List Char → List (List Char)
  | [] => []
  | c :: cs => if c = '\n' then cs :: lineStarts cs else lineStarts cs

/-- The search `re.search` of the header pattern (multiline) as a
Boolean: the pattern matches at the start of the content or just after
some newline. -/
def hasHeaderL (fd : List Char) (cs : List Char) : Bool :=
  matchHashWs fd cs || (lineStarts cs).any (matchHashWs fd)

/-- The header search of `ensure_date_header` (line 88 of `jotmd.py`). -/
def hasHeader (fd : String) (content : String) : Bool :=
  hasHeaderL fd.data content.data

/-- Function `ensure_date_header` of `jotmd.py` (lines 83-98) as a transformation
of the file content (the file is read once, and all writes append at
end-of-file): a no-op when the header pattern matches somewhere;
otherwise append a newline when the nonempty content does not already
end with one, then a blank separator line when the content is nonempty,
then the header line `# <fd>` and a blank line. -/
def ensure_date_header (content : String) (d : Date) : String :=
  let date_header := formatDate d
  if hasHeader date_header content then content
  else
    let c1 := if pyNonEmpty content && !endsWithNL content then content ++ "\n" else content
    let c2 := if pyNonEmpty content then c1 ++ "\n" else c1
    c2 ++ "# " ++ date_header ++ "\n\n"

/-- Function `append_lines_under_today` of `jotmd.py` (lines 101-107) as a content
transformation: append each line followed by one newline, in order (the
`dt` argument is unused, exactly as in the source). -/
def append_lines_under_today (content : String) (dt : Date) (lines : List String) : String :=
  lines.foldl (fun acc line => acc ++ line ++ "\n") content

/-- Python `content.split("\n")`: the lines of the file as read back. -/
def splitLines : List Char → List (List Char)
  | [] => [[]]
  | c :: cs =>
    if c = '\n' then [] :: splitLines cs
    else
      match splitLines cs with
      | [] => [[c]]
      | l :: ls => (c :: l) :: ls

/-- How many lines of the content are exactly the Date Section header
`# <fd>` — the only header form the program ever writes. -/
def headerLineCount (fd : String) (content : String) : Nat :=
  (splitLines content.data).count ('#' :: ' ' :: fd.data)

/-- File contents reachable from a fresh (empty) year file by the
program's two appending operations, for arbitrary messages and tags. -/
inductive Reachable : String → Prop
  | protected empty : Reachable ""
  | header (c : String) (d : Date) : Reachable c → Reachable (ensure_date_header c d)
  | note (c : String) (d : Date) (m : String) (tags : List String) :
      Reachable c →
      Reachable (append_lines_under_today c d (render_note_lines m tags).lines)

/-- Reachability restricted to messages and tags without newline
characters. -/
inductive CleanReachable : String → Prop
  | protected empty : CleanReachable ""
  | header (c : String) (d : Date) :
      CleanReachable c → CleanReachable (ensure_date_header c d)
  | note (c : String) (d : Date) (m : String) (tags : List String) :
      CleanReachable c → '\n' ∉ m.data → (∀ t ∈ tags, '\n' ∉ t.data) →
      CleanReachable (append_lines_under_today c d (render_note_lines m tags).lines)

/-- One program step (the amended "subsequent operation"), restricted to
newline-free messages and tags. -/
inductive CleanStep : String → String → Prop
  | header (c : String) (d : Date) : CleanStep c (ensure_date_header c d)
  | note (c : String) (d : Date) (m : String) (tags : List String) :
      '\n' ∉ m.data → (∀ t ∈ tags, '\n' ∉ t.data) →
      CleanStep c (append_lines_under_today c d (render_note_lines m tags).lines)

/-! Character facts and matcher lemmas -/

theorem digit_not_special {c : Char} (h : isDigit09 c = true) :
    pyIsSpace c = false ∧ c ≠ '\n' ∧ c ≠ '#' := by
  have h1 : c ≠ ' ' := by rintro rfl; exact absurd h (by decide)
  have h2 : c ≠ '\t' := by rintro rfl; exact absurd h (by decide)
  have h3 : c ≠ '\n' := by rintro rfl; exact absurd h (by decide)
  have h4 : c ≠ '\r' := by rintro rfl; exact absurd h (by decide)
  have h5 : c ≠ '\x0b' := by rintro rfl; exact absurd h (by decide)
  have h6 : c ≠ '\x0c' := by rintro rfl; exact absurd h (by decide)
  have h7 : c ≠ '#' := by rintro rfl; exact absurd h (by decide)
  refine ⟨?_, h3, h7⟩
  simp [pyIsSpace, h1, h2, h3, h4, h5, h6]

theorem dateLike_not_special {w : List Char} (hw : DateLike w) :
    ∀ c ∈ w, pyIsSpace c = false ∧ c ≠ '\n' ∧ c ≠ '#' := by
  intro c hc
  rcases hw.2.1 c hc with h | h
  · exact digit_not_special h
  · subst h; exact ⟨by decide, by decide, by decide⟩

theorem dateLike_cons {w : List Char} (hw : DateLike w) :
    ∃ c0 w2, w = c0 :: w2 ∧ isDigit09 c0 = true := by
  obtain ⟨c0, hh, hd⟩ := hw.2.2
  cases w with
  | nil => simp at hh
  | cons a as =>
    simp only [List.head?_cons, Option.some_inj] at hh
    exact ⟨c0, as, by rw [hh], hd⟩

theorem lineStarts_append_no_nl {l r : List Char} (h : '\n' ∉ l) :
    lineStarts (l ++ r) = lineStarts r := by
  induction l with
  | nil => rfl
  | cons c l ih =>
    have hc : c ≠ '\n' := fun hh => h (hh ▸ List.mem_cons_self c l)
    simp only [List.cons_append, lineStarts, if_neg hc]
    exact ih fun hh => h (List.mem_cons_of_mem c hh)

theorem mem_lineStarts_append (x y : List Char) : y ∈ lineStarts (x ++ '\n' :: y) := by
  induction x with
  | nil => simp [lineStarts]
  | cons c x ih =>
    by_cases hc : c = '\n'
    · subst hc
      simp only [List.cons_append, lineStarts, if_pos rfl]
      exact List.mem_cons_of_mem _ ih
    · simp only [List.cons_append, lineStarts, if_neg hc]
      exact ih

theorem matchesAfterDate_cases (tail : List Char)
    (h : tail = [] ∨ tail.head? = some '\n') : matchesAfterDate tail = true := by
  rcases h with rfl | hh
  · rfl
  · cases tail with
    | nil => simp at hh
    | cons a r =>
      simp only [List.head?_cons, Option.some_inj] at hh
      subst hh
      have hc : ((('\n' :: r).takeWhile pyIsSpace).contains '\n') = true := by
        rw [List.takeWhile_cons, if_pos (by decide), List.contains_cons]
        simp
      show (decide (('\n' :: r).dropWhile pyIsSpace = []) ||
        (('\n' :: r).takeWhile pyIsSpace).contains '\n') = true
      rw [hc, Bool.or_true]

theorem matchesAfterDate_not_space {c : Char} {r : List Char}
    (hc : pyIsSpace c = false) : matchesAfterDate (c :: r) = false := by
  simp [matchesAfterDate, List.dropWhile_cons, List.takeWhile_cons, hc]

theorem matchHashWs_exact {fd tail : List Char} {c0 : Char}
    (hhead : fd.head? = some c0) (hc0 : pyIsSpace c0 = false)
    (htail : tail = [] ∨ tail.head? = some '\n') :
    matchHashWs fd ('#' :: ' ' :: (fd ++ tail)) = true := by
  obtain ⟨fd2, rfl⟩ : ∃ fd2, fd = c0 :: fd2 := by
    cases fd with
    | nil => simp at hhead
    | cons a as =>
      simp only [List.head?_cons, Option.some_inj] at hhead
      exact ⟨as, by rw [hhead]⟩
  have hrun : (' ' :: (c0 :: fd2 ++ tail)).takeWhile pyIsSpace = [' '] := by
    rw [List.takeWhile_cons, if_pos (by decide), List.cons_append,
      List.takeWhile_cons, if_neg (by simp [hc0])]
  show matchHashWs (c0 :: fd2) ('#' :: (' ' :: (c0 :: fd2 ++ tail))) = true
  rw [matchHashWs, hrun]
  apply List.any_eq_true.mpr
  refine ⟨0, by simp, ?_⟩
  simp only [List.drop_succ_cons, List.drop_zero]
  rw [Bool.and_eq_true]
  refine ⟨?_, ?_⟩
  · apply decide_eq_true
    rw [List.take_left]
  · rw [List.drop_left]
    exact matchesAfterDate_cases tail htail

/-- A line of a well-formed journal file: blank, a bullet or sub-bullet
continuation (first character `*` or space), or a header line. -/
def LineOK (l : List Char) : Prop :=
  l = [] ∨ l.head? = some '*' ∨ l.head? = some ' ' ∨
    ∃ w, DateLike w ∧ l = '#' :: ' ' :: w

/-- The central matcher characterization: at a line of a well-formed
file, the header pattern `#\s+<fd>\s*$` matches exactly when the line is
literally `# <fd>` (whitespace after `#` is forced to the single space
because the date starts with a digit, and the date of the line must be
`fd` itself because dates contain no whitespace and no newline). -/
theorem matchHashWs_line {fd l tail : List Char}
    (hfd : DateLike fd) (hnl : '\n' ∉ l) (hok : LineOK l)
    (htail : tail = [] ∨ tail.head? = some '\n') :
    (matchHashWs fd (l ++ tail) = true ↔ l = '#' :: ' ' :: fd) := by
  constructor
  · intro hm
    rcases hok with rfl | hstar | hspace | ⟨w, hw, rfl⟩
    · exfalso
      rcases htail with rfl | hh
      · simp [matchHashWs] at hm
      · cases tail with
        | nil => simp [matchHashWs] at hm
        | cons a r =>
          simp only [List.head?_cons, Option.some_inj] at hh
          subst hh
          simp [matchHashWs] at hm
    · exfalso
      cases l with
      | nil => simp at hstar
      | cons a l2 =>
        simp only [List.head?_cons, Option.some_inj] at hstar
        subst hstar
        simp [matchHashWs] at hm
    · exfalso
      cases l with
      | nil => simp at hspace
      | cons a l2 =>
        simp only [List.head?_cons, Option.some_inj] at hspace
        subst hspace
        simp [matchHashWs] at hm
    · -- header line `# <w>`: the match forces `fd = w`
      obtain ⟨cw, w2, rfl, hcw⟩ := dateLike_cons hw
      have hcwns : pyIsSpace cw = false := (digit_not_special hcw).1
      have hrun : (' ' :: (cw :: w2 ++ tail)).takeWhile pyIsSpace = [' '] := by
        rw [List.takeWhile_cons, if_pos (by decide), List.cons_append,
          List.takeWhile_cons, if_neg (by simp [hcwns])]
      rw [show ('#' :: ' ' :: (cw :: w2)) ++ tail
        = '#' :: (' ' :: ((cw :: w2) ++ tail)) from by simp] at hm
      rw [matchHashWs] at hm
      rw [show (' ' :: (cw :: w2 ++ tail)) = (' ' :: ((cw :: w2) ++ tail)) from by simp]
        at hrun
      rw [hrun] at hm
      obtain ⟨j, hj, hcond⟩ := List.any_eq_true.mp hm
      have hj0 : j = 0 := by
        have hj2 : j < 1 := by simpa using List.mem_range.mp hj
        omega
      subst hj0
      simp only [List.drop_succ_cons, List.drop_zero] at hcond
      rw [Bool.and_eq_true] at hcond
      obtain ⟨hA, hB⟩ := hcond
      have hA2 : ((cw :: w2) ++ tail).take fd.length = fd := of_decide_eq_true hA
      set w : List Char := cw :: w2 with hwdef
      rcases Nat.lt_trichotomy fd.length w.length with hlt | heq | hgt
      · exfalso
        have hdropw : w.drop fd.length ≠ [] := by
          rw [Ne, List.drop_eq_nil_iff]
          omega
        cases hdw : w.drop fd.length with
        | nil => exact hdropw hdw
        | cons c2 r2 =>
          have hc2w : c2 ∈ w := (List.drop_sublist _ _).subset (hdw ▸ List.mem_cons_self c2 r2)
          have hc2ns : pyIsSpace c2 = false := (dateLike_not_special hw c2 hc2w).1
          rw [List.drop_append_eq_append_drop, hdw] at hB
          rw [show fd.length - w.length = 0 from by omega, List.drop_zero] at hB
          rw [show (c2 :: r2) ++ tail = c2 :: (r2 ++ tail) from by simp] at hB
          rw [matchesAfterDate_not_space hc2ns] at hB
          exact Bool.false_ne_true hB
      · rw [heq, List.take_left] at hA2
        rw [hA2]
      · exfalso
        rw [List.take_append_eq_append_take, List.take_of_length_le (by omega)] at hA2
        have hnlfd : '\n' ∉ fd := by
          intro hmem
          rcases hfd.2.1 '\n' hmem with hdig | hsl
          · exact absurd hdig (by decide)
          · exact absurd hsl (by decide)
        rcases htail with rfl | hh
        · simp at hA2
          have hlen := congrArg List.length hA2
          omega
        · apply hnlfd
          cases tail with
          | nil => simp at hh
          | cons a r =>
            simp only [List.head?_cons, Option.some_inj] at hh
            subst hh
            obtain ⟨k, hk⟩ : ∃ k, fd.length - w.length = k + 1 := by
              refine ⟨fd.length - w.length - 1, ?_⟩
              omega
            rw [hk] at hA2
            rw [List.take_succ_cons] at hA2
            rw [← hA2]
            exact List.mem_append.mpr (Or.inr (List.mem_cons_self _ _))
  · rintro rfl
    rw [show ('#' :: ' ' :: fd) ++ tail = '#' :: ' ' :: (fd ++ tail) from by simp]
    obtain ⟨c0, w2, hfd0, hc0⟩ := dateLike_cons hfd
    exact matchHashWs_exact (by rw [hfd0]; rfl) (digit_not_special hc0).1 htail

/-! Line structure of journal files -/

/-- Rebuild a content from its lines, each terminated by one newline. -/
def joinT (ls : List (List Char)) : List Char := (ls.map fun l => l ++ ['\n']).flatten

theorem joinT_cons (l : List Char) (ls : List (List Char)) :
    joinT (l :: ls) = l ++ '\n' :: joinT ls := by
  simp [joinT]

theorem joinT_append (ls1 ls2 : List (List Char)) :
    joinT (ls1 ++ ls2) = joinT ls1 ++ joinT ls2 := by
  simp [joinT]

theorem joinT_eq_nil_iff {ls : List (List Char)} : joinT ls = [] ↔ ls = [] := by
  cases ls with
  | nil => simp [joinT]
  | cons l ls =>
    rw [joinT_cons]
    constructor
    · intro h
      rcases List.append_eq_nil.mp h with ⟨_, h2⟩
      simp at h2
    · intro h; simp at h

theorem joinT_getLast {ls : List (List Char)} (h : ls ≠ []) :
    (joinT ls).getLast? = some '\n' := by
  induction ls with
  | nil => exact absurd rfl h
  | cons l ls ih =>
    rw [joinT_cons]
    rw [List.getLast?_append]
    cases ls with
    | nil => simp [joinT]
    | cons l2 ls2 =>
      have hne : joinT (l2 :: ls2) ≠ [] := by
        rw [Ne, joinT_eq_nil_iff]; simp
      rw [show ('\n' :: joinT (l2 :: ls2)) = ['\n'] ++ joinT (l2 :: ls2) from rfl,
        List.getLast?_append, ih (by simp)]
      rfl

theorem hasHeaderL_joinT {fd : List Char} {ls : List (List Char)} (hfd : DateLike fd)
    (hls : ∀ l ∈ ls, '\n' ∉ l ∧ LineOK l) :
    (hasHeaderL fd (joinT ls) = true ↔ ('#' :: ' ' :: fd) ∈ ls) := by
  induction ls with
  | nil =>
    rw [show hasHeaderL fd (joinT []) = false from rfl]
    simp
  | cons l ls ih =>
    have hl := hls l (List.mem_cons_self l ls)
    have hrest : ∀ x ∈ ls, '\n' ∉ x ∧ LineOK x :=
      fun x hx => hls x (List.mem_cons_of_mem l hx)
    rw [joinT_cons]
    unfold hasHeaderL
    rw [lineStarts_append_no_nl hl.1]
    rw [show lineStarts ('\n' :: joinT ls) = joinT ls :: lineStarts (joinT ls) from by
      simp [lineStarts]]
    rw [List.any_cons]
    have hline := @matchHashWs_line fd l ('\n' :: joinT ls) hfd hl.1 hl.2
      (Or.inr rfl)
    constructor
    · intro hm
      rcases Bool.or_eq_true_iff.mp hm with hm | hm
      · exact List.mem_cons.mpr (Or.inl (hline.mp hm).symm)
      · have : hasHeaderL fd (joinT ls) = true := hm
        exact List.mem_cons.mpr (Or.inr ((ih hrest).mp this))
    · intro hm
      rcases List.mem_cons.mp hm with hm | hm
      · exact Bool.or_eq_true_iff.mpr (Or.inl (hline.mpr hm.symm))
      · exact Bool.or_eq_true_iff.mpr (Or.inr ((ih hrest).mpr hm))

theorem splitLines_append_nl {l r : List Char} (h : '\n' ∉ l) :
    splitLines (l ++ '\n' :: r) = l :: splitLines r := by
  induction l with
  | nil => simp [splitLines]
  | cons c l2 ih =>
    have hc : c ≠ '\n' := fun hh => h (hh ▸ List.mem_cons_self c l2)
    have ih2 := ih fun hh => h (List.mem_cons_of_mem c hh)
    rw [List.cons_append, splitLines, if_neg hc, ih2]

theorem splitLines_joinT {ls : List (List Char)} (h : ∀ l ∈ ls, '\n' ∉ l) :
    splitLines (joinT ls) = ls ++ [[]] := by
  induction ls with
  | nil => rfl
  | cons l ls ih =>
    rw [joinT_cons, splitLines_append_nl (h l (List.mem_cons_self l ls)),
      ih fun x hx => h x (List.mem_cons_of_mem l hx)]
    rfl

theorem headerLineCount_of_lines {fd c : String} {ls : List (List Char)}
    (hdata : c.data = joinT ls) (h : ∀ l ∈ ls, '\n' ∉ l) :
    headerLineCount fd c = ls.count ('#' :: ' ' :: fd.data) := by
  unfold headerLineCount
  rw [hdata, splitLines_joinT h, List.count_append, List.count_singleton]
  rw [if_neg (by simp)]
  omega

/-! `ensure_date_header`: unfolding and invariant preservation -/

theorem hasHeader_empty (fd : String) : hasHeader fd "" = false := rfl

theorem ensure_date_header_of_found {c : String} {d : Date}
    (h : hasHeader (formatDate d) c = true) : ensure_date_header c d = c := by
  simp only [ensure_date_header]
  rw [if_pos h]

theorem pyNonEmpty_iff {c : String} : pyNonEmpty c = true ↔ c ≠ "" := by
  unfold pyNonEmpty
  simp only [Bool.not_eq_true', List.isEmpty_eq_false]
  constructor
  · intro h hc; subst hc; exact h rfl
  · intro h hn; exact h (String.ext hn)

theorem ensure_date_header_data_empty (d : Date) :
    (ensure_date_header "" d).data
      = ('#' :: ' ' :: (formatDate d).data) ++ ['\n', '\n'] := by
  simp only [ensure_date_header]
  rw [if_neg (by simp [hasHeader_empty])]
  rw [if_neg (by decide), if_neg (by decide)]
  simp [String.data_append, show ("# " : String).data = ['#', ' '] from rfl,
    show ("\n\n" : String).data = ['\n', '\n'] from rfl]

theorem ensure_date_header_data_append {c : String} {d : Date}
    (h : hasHeader (formatDate d) c = false) (hne : c ≠ "") (hnl : endsWithNL c = true) :
    (ensure_date_header c d).data
      = c.data ++ '\n' :: (('#' :: ' ' :: (formatDate d).data) ++ ['\n', '\n']) := by
  simp only [ensure_date_header]
  rw [if_neg (by simp [h])]
  have hpn : pyNonEmpty c = true := pyNonEmpty_iff.mpr hne
  rw [if_pos hpn]
  rw [if_neg (by simp [hpn, hnl])]
  simp [String.data_append, show ("\n" : String).data = ['\n'] from rfl,
    show ("# " : String).data = ['#', ' '] from rfl,
    show ("\n\n" : String).data = ['\n', '\n'] from rfl]

/-- The well-formed-file invariant: the content is a sequence of
newline-terminated lines, each blank, bullet-like or a header line, and
no header line occurs twice. -/
def FileInv (c : String) : Prop :=
  ∃ ls, c.data = joinT ls ∧ (∀ l ∈ ls, '\n' ∉ l ∧ LineOK l) ∧
    ∀ w, DateLike w → ls.count ('#' :: ' ' :: w) ≤ 1

theorem headerLine_no_nl {w : List Char} (hw : DateLike w) :
    '\n' ∉ ('#' :: ' ' :: w) := by
  intro hm
  rcases List.mem_cons.mp hm with hm | hm
  · exact absurd hm.symm (by decide)
  rcases List.mem_cons.mp hm with hm | hm
  · exact absurd hm.symm (by decide)
  · exact (dateLike_not_special hw _ hm).2.1 rfl

theorem count_pair2 (hl target : List Char) (hne : target ≠ []) :
    ([hl, []] : List (List Char)).count target = if hl = target then 1 else 0 := by
  have h1 : ¬ (([] : List Char) = target) := fun h => hne h.symm
  by_cases h : hl = target
  · subst h
    simp [List.count_cons, h1, hne]
  · simp [List.count_cons, h1, h, hne]

theorem count_block3 (hl target : List Char) (hne : target ≠ []) :
    ([[], hl, []] : List (List Char)).count target = if hl = target then 1 else 0 := by
  have h1 : ¬ (([] : List Char) = target) := fun h => hne h.symm
  by_cases h : hl = target
  · subst h
    simp [List.count_cons, h1, hne]
  · simp [List.count_cons, h1, h, hne]

theorem inv_ensure_date_header {c : String} (hInv : FileInv c) (d : Date) :
    FileInv (ensure_date_header c d) := by
  obtain ⟨ls, hdata, hgood, hcount⟩ := hInv
  by_cases hh : hasHeader (formatDate d) c = true
  · rw [ensure_date_header_of_found hh]
    exact ⟨ls, hdata, hgood, hcount⟩
  · rw [Bool.not_eq_true] at hh
    have hfd : DateLike (formatDate d).data := formatDate_dateLike d
    have hhl_nl : '\n' ∉ ('#' :: ' ' :: (formatDate d).data) := headerLine_no_nl hfd
    have hhl_ok : LineOK ('#' :: ' ' :: (formatDate d).data) :=
      Or.inr (Or.inr (Or.inr ⟨(formatDate d).data, hfd, rfl⟩))
    have hnotmem : ('#' :: ' ' :: (formatDate d).data) ∉ ls := by
      intro hm
      have h2 := (hasHeaderL_joinT hfd hgood).mpr hm
      have h3 : hasHeader (formatDate d) c = true := by
        unfold hasHeader; rw [hdata]; exact h2
      rw [hh] at h3
      exact Bool.false_ne_true h3
    rcases eq_or_ne ls [] with rfl | hlsne
    · have hc : c = "" := String.ext (by rw [hdata]; rfl)
      subst hc
      refine ⟨['#' :: ' ' :: (formatDate d).data, []], ?_, ?_, ?_⟩
      · rw [ensure_date_header_data_empty d]
        simp [joinT]
      · intro l hl
        rcases List.mem_cons.mp hl with rfl | hl
        · exact ⟨hhl_nl, hhl_ok⟩
        · rcases List.mem_cons.mp hl with rfl | hl
          · exact ⟨by simp, Or.inl rfl⟩
          · simp at hl
      · intro w hw
        rw [count_pair2 _ _ (by simp)]
        split <;> omega
    · have hcne : c ≠ "" := by
        intro hc
        apply hlsne
        rw [← joinT_eq_nil_iff, ← hdata, hc]
      have hnl : endsWithNL c = true := by
        unfold endsWithNL
        rw [hdata, joinT_getLast hlsne]
        rfl
      refine ⟨ls ++ [[], '#' :: ' ' :: (formatDate d).data, []], ?_, ?_, ?_⟩
      · rw [ensure_date_header_data_append hh hcne hnl, hdata, joinT_append]
        simp [joinT]
      · intro l hl
        rcases List.mem_append.mp hl with hl | hl
        · exact hgood l hl
        · rcases List.mem_cons.mp hl with rfl | hl
          · exact ⟨by simp, Or.inl rfl⟩
          rcases List.mem_cons.mp hl with rfl | hl
          · exact ⟨hhl_nl, hhl_ok⟩
          rcases List.mem_cons.mp hl with rfl | hl
          · exact ⟨by simp, Or.inl rfl⟩
          · simp at hl
      · intro w hw
        rw [List.count_append, count_block3 _ _ (by simp)]
        by_cases hweq : w = (formatDate d).data
        · have h0 : ls.count ('#' :: ' ' :: w) = 0 := by
            rw [hweq]; exact List.count_eq_zero.mpr hnotmem
          rw [h0]
          split <;> omega
        · rw [if_neg (by intro hhh; simp at hhh; exact hweq hhh.symm)]
          have := hcount w hw
          omega

theorem headerLineCount_mono_edh {c : String} (hInv : FileInv c) (fd : String)
    (d : Date) :
    headerLineCount fd c ≤ headerLineCount fd (ensure_date_header c d) := by
  obtain ⟨ls, hdata, hgood, hcount⟩ := hInv
  have hnl : ∀ l ∈ ls, '\n' ∉ l := fun l hl => (hgood l hl).1
  by_cases hh : hasHeader (formatDate d) c = true
  · rw [ensure_date_header_of_found hh]
  · rw [Bool.not_eq_true] at hh
    rw [headerLineCount_of_lines hdata hnl]
    clear hcount
    rcases eq_or_ne ls [] with rfl | hlsne
    · simp
    · have hcne : c ≠ "" := by
        intro hc
        apply hlsne
        rw [← joinT_eq_nil_iff, ← hdata, hc]
      have hend : endsWithNL c = true := by
        unfold endsWithNL
        rw [hdata, joinT_getLast hlsne]
        rfl
      have hd2 : (ensure_date_header c d).data
          = joinT (ls ++ [[], '#' :: ' ' :: (formatDate d).data, []]) := by
        rw [ensure_date_header_data_append hh hcne hend, hdata, joinT_append]
        simp [joinT]
      have hnl2 : ∀ l ∈ ls ++ [[], '#' :: ' ' :: (formatDate d).data, []], '\n' ∉ l := by
        intro l hl
        rcases List.mem_append.mp hl with hl | hl
        · exact hnl l hl
        · rcases List.mem_cons.mp hl with rfl | hl
          · simp
          rcases List.mem_cons.mp hl with rfl | hl
          · exact headerLine_no_nl (formatDate_dateLike d)
          rcases List.mem_cons.mp hl with rfl | hl
          · simp
          · simp at hl
      rw [headerLineCount_of_lines hd2 hnl2, List.count_append]
      omega

/-! `append_lines_under_today`: invariant preservation -/

theorem append_lines_data (c : String) (d : Date) (lines : List String) :
    (append_lines_under_today c d lines).data
      = c.data ++ joinT (lines.map String.data) := by
  induction lines generalizing c with
  | nil => simp [append_lines_under_today, joinT]
  | cons l ls ih =>
    show (append_lines_under_today (c ++ l ++ "\n") d ls).data = _
    rw [ih]
    rw [List.map_cons, joinT_cons]
    simp [String.data_append, show ("\n" : String).data = ['\n'] from rfl]

theorem nl_not_mem_rstrip {s : String} (h : '\n' ∉ s.data) :
    '\n' ∉ (pyRstrip s).data :=
  fun hm => h (rstripL_subset _ hm)

theorem mem_cleanTags_no_nl {s : String} {tags : List String}
    (ht : ∀ t ∈ tags, '\n' ∉ t.data) (hs : s ∈ cleanTags tags) : '\n' ∉ s.data := by
  unfold cleanTags at hs
  obtain ⟨t0, ht0, rfl⟩ := List.mem_map.mp hs
  intro hm
  exact ht t0 (List.mem_filter.mp ht0).1 (stripL_subset _ hm)

theorem rendered_lines_ok {m : String} {tags : List String}
    (hm : '\n' ∉ m.data) (ht : ∀ t ∈ tags, '\n' ∉ t.data) :
    ∀ line ∈ (render_note_lines m tags).lines,
      '\n' ∉ line.data ∧ (line.data.head? = some '*' ∨ line.data.head? = some ' ') := by
  intro line hline
  by_cases hct : cleanTags tags = []
  · rw [render_note_lines_of_nil hct] at hline
    simp only [List.mem_singleton] at hline
    subst hline
    refine ⟨nl_not_mem_rstrip ?_, Or.inl (noTagLine_head m)⟩
    rw [String.data_append]
    intro hmem
    rcases List.mem_append.mp hmem with hmem | hmem
    · exact absurd hmem (by decide)
    · exact hm hmem
  · rw [render_note_lines_of_ne_nil hct] at hline
    rcases List.mem_append.mp hline with hline | hline
    · obtain ⟨s, hs, rfl⟩ := List.mem_map.mp hline
      have hsmem : s ∈ cleanTags tags := (List.mem_filter.mp ((pySorted_perm _).subset hs)).1
      have hsnl : '\n' ∉ s.data := mem_cleanTags_no_nl ht hsmem
      refine ⟨nl_not_mem_rstrip ?_, Or.inl (personLine_head s m)⟩
      simp only [String.data_append]
      intro hmem
      rcases List.mem_append.mp hmem with hmem | hmem
      · rcases List.mem_append.mp hmem with hmem | hmem
        · rcases List.mem_append.mp hmem with hmem | hmem
          · exact absurd hmem (by decide)
          · exact hsnl hmem
        · exact absurd hmem (by decide)
      · exact hm hmem
    · obtain ⟨s, hs, hmem2⟩ := List.mem_flatMap.mp hline
      have hsmem : s ∈ cleanTags tags := (List.mem_filter.mp ((pySorted_perm _).subset hs)).1
      have hsnl : '\n' ∉ s.data := mem_cleanTags_no_nl ht hsmem
      rcases List.mem_cons.mp hmem2 with rfl | hmem2
      · refine ⟨?_, Or.inl (by rw [String.data_append]; rfl)⟩
        rw [String.data_append]
        intro hmem
        rcases List.mem_append.mp hmem with hmem | hmem
        · exact absurd hmem (by decide)
        · exact hsnl hmem
      · rcases List.mem_cons.mp hmem2 with rfl | hmem2
        · refine ⟨nl_not_mem_rstrip ?_, Or.inr (subbullet_head m)⟩
          rw [String.data_append]
          intro hmem
          rcases List.mem_append.mp hmem with hmem | hmem
          · exact absurd hmem (by decide)
          · exact hm hmem
        · simp at hmem2

theorem count_eq_append_bullets {ls2 : List (List Char)} {w : List Char}
    (h : ∀ l ∈ ls2, l.head? = some '*' ∨ l.head? = some ' ') (ls : List (List Char)) :
    (ls ++ ls2).count ('#' :: ' ' :: w) = ls.count ('#' :: ' ' :: w) := by
  rw [List.count_append]
  have h0 : ls2.count ('#' :: ' ' :: w) = 0 := by
    rw [List.count_eq_zero]
    intro hm
    rcases h _ hm with hh | hh
    · simp at hh
    · simp at hh
  omega

theorem inv_append_note {c : String} (hInv : FileInv c) (d : Date) {m : String}
    {tags : List String} (hm : '\n' ∉ m.data) (ht : ∀ t ∈ tags, '\n' ∉ t.data) :
    FileInv (append_lines_under_today c d (render_note_lines m tags).lines) := by
  obtain ⟨ls, hdata, hgood, hcount⟩ := hInv
  refine ⟨ls ++ ((render_note_lines m tags).lines).map String.data, ?_, ?_, ?_⟩
  · rw [append_lines_data, hdata, joinT_append]
  · intro l hl
    rcases List.mem_append.mp hl with hl | hl
    · exact hgood l hl
    · obtain ⟨line, hline, rfl⟩ := List.mem_map.mp hl
      obtain ⟨hnl, hhead⟩ := rendered_lines_ok hm ht line hline
      refine ⟨hnl, ?_⟩
      rcases hhead with hh | hh
      · exact Or.inr (Or.inl hh)
      · exact Or.inr (Or.inr (Or.inl hh))
  · intro w hw
    rw [count_eq_append_bullets
      (fun l hl => by
        obtain ⟨line, hline, rfl⟩ := List.mem_map.mp hl
        exact (rendered_lines_ok hm ht line hline).2) ls]
    exact hcount w hw

theorem headerLineCount_eq_append_note {c : String} (hInv : FileInv c) (fd : String)
    (d : Date) {m : String} {tags : List String} (hm : '\n' ∉ m.data)
    (ht : ∀ t ∈ tags, '\n' ∉ t.data) :
    headerLineCount fd (append_lines_under_today c d (render_note_lines m tags).lines)
      = headerLineCount fd c := by
  obtain ⟨ls, hdata, hgood, hcount⟩ := hInv
  have hnl : ∀ l ∈ ls, '\n' ∉ l := fun l hl => (hgood l hl).1
  have hd2 : (append_lines_under_today c d (render_note_lines m tags).lines).data
      = joinT (ls ++ ((render_note_lines m tags).lines).map String.data) := by
    rw [append_lines_data, hdata, joinT_append]
  have hnl2 : ∀ l ∈ ls ++ ((render_note_lines m tags).lines).map String.data,
      '\n' ∉ l := by
    intro l hl
    rcases List.mem_append.mp hl with hl | hl
    · exact hnl l hl
    · obtain ⟨line, hline, rfl⟩ := List.mem_map.mp hl
      exact (rendered_lines_ok hm ht line hline).1
  rw [headerLineCount_of_lines hd2 hnl2, headerLineCount_of_lines hdata hnl]
  exact count_eq_append_bullets
    (fun l hl => by
      obtain ⟨line, hline, rfl⟩ := List.mem_map.mp hl
      exact (rendered_lines_ok hm ht line hline).2) ls

theorem cleanReachable_inv {c : String} (h : CleanReachable c) : FileInv c := by
  induction h with
  | empty => exact ⟨[], rfl, by simp, by simp⟩
  | header c d _ ih => exact inv_ensure_date_header ih d
  | note c d m tags _ hm ht ih => exact inv_append_note ih d hm ht

/-! Idempotence of `ensure_date_header` -/

theorem hasHeaderL_self {fd tail : List Char} {c0 : Char}
    (hhead : fd.head? = some c0) (hc0 : pyIsSpace c0 = false)
    (htail : tail = [] ∨ tail.head? = some '\n') :
    hasHeaderL fd ('#' :: ' ' :: (fd ++ tail)) = true :=
  Bool.or_eq_true_iff.mpr (Or.inl (matchHashWs_exact hhead hc0 htail))

theorem hasHeaderL_suffix {fd tail : List Char} (z : List Char) {c0 : Char}
    (hhead : fd.head? = some c0) (hc0 : pyIsSpace c0 = false)
    (htail : tail = [] ∨ tail.head? = some '\n') :
    hasHeaderL fd (z ++ '\n' :: ('#' :: ' ' :: (fd ++ tail))) = true := by
  unfold hasHeaderL
  apply Bool.or_eq_true_iff.mpr
  right
  apply List.any_eq_true.mpr
  exact ⟨_, mem_lineStarts_append z _, matchHashWs_exact hhead hc0 htail⟩

theorem ensure_date_header_data_append_nonl {c : String} {d : Date}
    (h : hasHeader (formatDate d) c = false) (hne : c ≠ "")
    (hnl : endsWithNL c = false) :
    (ensure_date_header c d).data
      = (c.data ++ ['\n']) ++ '\n' :: (('#' :: ' ' :: (formatDate d).data) ++ ['\n', '\n']) := by
  simp only [ensure_date_header]
  rw [if_neg (by simp [h])]
  have hpn : pyNonEmpty c = true := pyNonEmpty_iff.mpr hne
  rw [if_pos hpn]
  rw [if_pos (by rw [hpn, hnl]; rfl)]
  simp [String.data_append, show ("\n" : String).data = ['\n'] from rfl,
    show ("# " : String).data = ['#', ' '] from rfl,
    show ("\n\n" : String).data = ['\n', '\n'] from rfl]

theorem ensure_date_header_idem (c : String) (d : Date) :
    ensure_date_header (ensure_date_header c d) d = ensure_date_header c d := by
  by_cases hh : hasHeader (formatDate d) c = true
  · rw [ensure_date_header_of_found hh, ensure_date_header_of_found hh]
  · rw [Bool.not_eq_true] at hh
    apply ensure_date_header_of_found
    obtain ⟨c0, fd2, hfd0, hc0⟩ := dateLike_cons (formatDate_dateLike d)
    have hhead : (formatDate d).data.head? = some c0 := by rw [hfd0]; rfl
    have hc0ns := (digit_not_special hc0).1
    unfold hasHeader
    by_cases hce : c = ""
    · subst hce
      rw [ensure_date_header_data_empty d]
      rw [show ('#' :: ' ' :: (formatDate d).data) ++ ['\n', '\n']
        = '#' :: ' ' :: ((formatDate d).data ++ ['\n', '\n']) from by simp]
      exact hasHeaderL_self hhead hc0ns (Or.inr rfl)
    · by_cases hnl : endsWithNL c = true
      · rw [ensure_date_header_data_append hh hce hnl]
        rw [show ('#' :: ' ' :: (formatDate d).data) ++ ['\n', '\n']
          = '#' :: ' ' :: ((formatDate d).data ++ ['\n', '\n']) from by simp]
        exact hasHeaderL_suffix c.data hhead hc0ns (Or.inr rfl)
      · rw [Bool.not_eq_true] at hnl
        rw [ensure_date_header_data_append_nonl hh hce hnl]
        rw [show ('#' :: ' ' :: (formatDate d).data) ++ ['\n', '\n']
          = '#' :: ' ' :: ((formatDate d).data ++ ['\n', '\n']) from by simp]
        exact hasHeaderL_suffix (c.data ++ ['\n']) hhead hc0ns (Or.inr rfl)

/-- C2 (counterexample). The at-most-one-header invariant fails for
journal files reachable by the program's operations as they stand: a
message containing an embedded newline is appended verbatim, so the note
`"x\n# 08/14/2025"` adds a second `# 08/14/2025` header line to a file
whose header for that date was just written. -/
theorem reachable_two_headers_counterexample :
    ¬ (∀ c : String, Reachable c → ∀ d : Date,
        headerLineCount (formatDate d) c ≤ 1) := by
  intro hclaim
  have hr : Reachable (append_lines_under_today
      (ensure_date_header "" ⟨2025, 8, 14⟩) ⟨2025, 8, 14⟩
      (render_note_lines "x\n# 08/14/2025" []).lines) :=
    Reachable.note _ _ _ _ (Reachable.header _ _ Reachable.empty)
  have h2 := hclaim _ hr ⟨2025, 8, 14⟩
  have h3 : headerLineCount (formatDate ⟨2025, 8, 14⟩)
      (append_lines_under_today (ensure_date_header "" ⟨2025, 8, 14⟩) ⟨2025, 8, 14⟩
        (render_note_lines "x\n# 08/14/2025" []).lines) = 2 := by decide
  rw [h3] at h2
  omega

/-- C2 (amended). `ensure_date_header` is idempotent (calling it
twice in a row for the same date is the same as calling it once, on any
content), and — restricted to messages and tags containing no newline
character, which is what the counterexample forces — every journal file
reachable by the program's operations contains at most one Date Section
header line per formatted date; once present a header is never removed:
its line count never decreases under `ensure_date_header` and is
unchanged by appending rendered note lines. -/
theorem ensure_date_header_idem_and_invariant :
    (∀ (c : String) (d : Date),
      ensure_date_header (ensure_date_header c d) d = ensure_date_header c d) ∧
    (∀ c : String, CleanReachable c → ∀ d : Date,
      headerLineCount (formatDate d) c ≤ 1) ∧
    (∀ c : String, CleanReachable c → ∀ (fd : String) (dq : Date),
      headerLineCount fd c ≤ headerLineCount fd (ensure_date_header c dq)) ∧
    (∀ c : String, CleanReachable c → ∀ (fd : String) (dq : Date)
      (m : String) (tags : List String), '\n' ∉ m.data → (∀ t ∈ tags, '\n' ∉ t.data) →
      headerLineCount fd (append_lines_under_today c dq (render_note_lines m tags).lines)
        = headerLineCount fd c) := by
  refine ⟨ensure_date_header_idem, ?_, ?_, ?_⟩
  · intro c hr d
    obtain ⟨ls, hdata, hgood, hcount⟩ := cleanReachable_inv hr
    rw [headerLineCount_of_lines hdata fun l hl => (hgood l hl).1]
    exact hcount _ (formatDate_dateLike d)
  · intro c hr fd dq
    exact headerLineCount_mono_edh (cleanReachable_inv hr) fd dq
  · intro c hr fd dq m tags hm ht
    exact headerLineCount_eq_append_note (cleanReachable_inv hr) fd dq hm ht

theorem ensure_date_header_idem_and_invariant_witness :
    CleanReachable (ensure_date_header "" ⟨2025, 8, 14⟩) ∧
      headerLineCount (formatDate ⟨2025, 8, 14⟩)
        (ensure_date_header "" ⟨2025, 8, 14⟩) ≤ 1 :=
  ⟨CleanReachable.header _ _ CleanReachable.empty,
    ensure_date_header_idem_and_invariant.2.1 _
      (CleanReachable.header _ _ CleanReachable.empty) ⟨2025, 8, 14⟩⟩

/-! The no-op condition of `ensure_date_header` (C5) -/

theorem splitLines_decomp (cs : List Char) :
    ∃ l0 ls0, splitLines cs = l0 :: ls0 ∧
      (∃ r, (r = [] ∨ r.head? = some '\n') ∧ l0 ++ r = cs) ∧
      ∀ l ∈ ls0, ∃ r, (r = [] ∨ r.head? = some '\n') ∧ (l ++ r) ∈ lineStarts cs := by
  induction cs with
  | nil => exact ⟨[], [], rfl, ⟨[], Or.inl rfl, rfl⟩, by simp⟩
  | cons c cs ih =>
    obtain ⟨l0, ls0, hsplit, ⟨r0, hr0, hcat⟩, htail⟩ := ih
    by_cases hc : c = '\n'
    · subst hc
      refine ⟨[], l0 :: ls0, ?_, ⟨'\n' :: cs, Or.inr rfl, rfl⟩, ?_⟩
      · rw [splitLines, if_pos rfl, hsplit]
      · intro l hl
        have hls : lineStarts ('\n' :: cs) = cs :: lineStarts cs := by
          simp [lineStarts]
        rcases List.mem_cons.mp hl with rfl | hl
        · exact ⟨r0, hr0, by rw [hls, hcat]; exact List.mem_cons_self _ _⟩
        · obtain ⟨r, hr, hmem⟩ := htail l hl
          exact ⟨r, hr, by rw [hls]; exact List.mem_cons_of_mem _ hmem⟩
    · refine ⟨c :: l0, ls0, ?_, ⟨r0, hr0, by rw [List.cons_append, hcat]⟩, ?_⟩
      · rw [splitLines, if_neg hc, hsplit]
      · intro l hl
        obtain ⟨r, hr, hmem⟩ := htail l hl
        have hls : lineStarts (c :: cs) = lineStarts cs := by
          simp [lineStarts, hc]
        exact ⟨r, hr, by rw [hls]; exact hmem⟩

theorem hasHeaderL_of_exact_line {fd : String} {cs : List Char}
    {c0 : Char} (hhead : fd.data.head? = some c0) (hc0 : pyIsSpace c0 = false)
    (hmem : ('#' :: ' ' :: fd.data) ∈ splitLines cs) : hasHeaderL fd.data cs = true := by
  obtain ⟨l0, ls0, hsplit, ⟨r0, hr0, hcat⟩, htail⟩ := splitLines_decomp cs
  rw [hsplit] at hmem
  rcases List.mem_cons.mp hmem with heq | hmem
  · subst hcat
    rw [← heq]
    rw [show ('#' :: ' ' :: fd.data) ++ r0 = '#' :: ' ' :: (fd.data ++ r0) from by simp]
    exact hasHeaderL_self hhead hc0 hr0
  · obtain ⟨r, hr, hpos⟩ := htail _ hmem
    unfold hasHeaderL
    apply Bool.or_eq_true_iff.mpr
    right
    apply List.any_eq_true.mpr
    refine ⟨_, hpos, ?_⟩
    rw [show ('#' :: ' ' :: fd.data) ++ r = '#' :: ' ' :: (fd.data ++ r) from by simp]
    exact matchHashWs_exact hhead hc0 hr

/-- C5 (counterexample). The no-op condition is not "a line exactly
equal to `# <formatted-date>` exists": the file `"#  08/14/2025\n"` (two
spaces after `#`) contains no such line, yet `ensure_date_header` is a
no-op on it, because the search pattern `^#\s+<date>\s*$` also accepts
extra whitespace. -/
theorem ensure_date_header_noop_iff_counterexample :
    ¬ (∀ (c : String) (d : Date),
        ensure_date_header c d = c ↔
          ('#' :: ' ' :: (formatDate d).data) ∈ splitLines c.data) := by
  intro hclaim
  have h := (hclaim "#  08/14/2025\n" ⟨2025, 8, 14⟩).mp (by decide)
  exact absurd h (by decide)

/-- C5 (amended). `ensure_date_header` is a no-op exactly when the
multiline pattern `^#\s+<formatted-date>\s*$` matches somewhere in the
content; a line exactly equal to `# <formatted-date>` anywhere in the
file is sufficient for the no-op (but, per the counterexample, not
necessary). -/
theorem ensure_date_header_noop_iff :
    (∀ (c : String) (d : Date),
      ensure_date_header c d = c ↔ hasHeader (formatDate d) c = true) ∧
    (∀ (c : String) (d : Date),
      ('#' :: ' ' :: (formatDate d).data) ∈ splitLines c.data →
        ensure_date_header c d = c) := by
  have hmain : ∀ (c : String) (d : Date),
      ensure_date_header c d = c ↔ hasHeader (formatDate d) c = true := by
    intro c d
    constructor
    · intro heq
      by_contra hhB
      rw [Bool.not_eq_true] at hhB
      have hd := congrArg String.data heq
      by_cases hce : c = ""
      · subst hce
        rw [ensure_date_header_data_empty d] at hd
        simp at hd
      · by_cases hnl : endsWithNL c = true
        · rw [ensure_date_header_data_append hhB hce hnl] at hd
          have hlen := congrArg List.length hd
          simp [List.length_append] at hlen
        · rw [Bool.not_eq_true] at hnl
          rw [ensure_date_header_data_append_nonl hhB hce hnl] at hd
          have hlen := congrArg List.length hd
          simp [List.length_append] at hlen
    · exact ensure_date_header_of_found
  refine ⟨hmain, ?_⟩
  intro c d hmem
  apply (hmain c d).mpr
  obtain ⟨c0, fd2, hfd0, hc0⟩ := dateLike_cons (formatDate_dateLike d)
  exact hasHeaderL_of_exact_line (by rw [hfd0]; rfl) (digit_not_special hc0).1 hmem

theorem ensure_date_header_noop_iff_witness :
    ('#' :: ' ' :: (formatDate ⟨2025, 8, 14⟩).data)
        ∈ splitLines ("# 08/14/2025\n" : String).data ∧
      ensure_date_header "# 08/14/2025\n" ⟨2025, 8, 14⟩ = "# 08/14/2025\n" :=
  ⟨by decide, ensure_date_header_noop_iff.2 "# 08/14/2025\n" ⟨2025, 8, 14⟩ (by decide)⟩

/-- C6. When the date's header is not found, `ensure_date_header`
appends at end-of-file, in order: a newline iff the file is non-empty
and does not already end with one, a blank separator line iff the file
is non-empty, the header line `# <formatted-date>`, and one blank line
after the header; on an empty file the header is written with no content
before it. -/
theorem ensure_date_header_append_format (c : String) (d : Date)
    (h : hasHeader (formatDate d) c = false) :
    (ensure_date_header c d
      = c ++ (if c ≠ "" ∧ ¬ endsWithNL c = true then "\n" else "")
        ++ (if c ≠ "" then "\n" else "")
        ++ "# " ++ formatDate d ++ "\n\n") ∧
    (c = "" → ensure_date_header c d = "# " ++ formatDate d ++ "\n\n") := by
  constructor
  · by_cases hce : c = ""
    · subst hce
      apply String.ext
      rw [ensure_date_header_data_empty d]
      rw [if_neg (by simp), if_neg (by simp)]
      simp [String.data_append, show ("" : String).data = [] from rfl,
        show ("# " : String).data = ['#', ' '] from rfl,
        show ("\n\n" : String).data = ['\n', '\n'] from rfl]
    · by_cases hnl : endsWithNL c = true
      · apply String.ext
        rw [ensure_date_header_data_append h hce hnl]
        rw [if_neg (by simp [hnl]), if_pos hce]
        simp [String.data_append, show ("" : String).data = [] from rfl,
          show ("\n" : String).data = ['\n'] from rfl,
          show ("# " : String).data = ['#', ' '] from rfl,
          show ("\n\n" : String).data = ['\n', '\n'] from rfl]
      · rw [Bool.not_eq_true] at hnl
        apply String.ext
        rw [ensure_date_header_data_append_nonl h hce hnl]
        rw [if_pos ⟨hce, by simp [hnl]⟩, if_pos hce]
        simp [String.data_append, show ("\n" : String).data = ['\n'] from rfl,
          show ("# " : String).data = ['#', ' '] from rfl,
          show ("\n\n" : String).data = ['\n', '\n'] from rfl]
  · intro hce
    subst hce
    apply String.ext
    rw [ensure_date_header_data_empty d]
    simp [String.data_append, show ("# " : String).data = ['#', ' '] from rfl,
      show ("\n\n" : String).data = ['\n', '\n'] from rfl]

theorem ensure_date_header_append_format_witness :
    hasHeader (formatDate ⟨2025, 8, 14⟩) "" = false ∧
      ensure_date_header "" ⟨2025, 8, 14⟩ = "# " ++ formatDate ⟨2025, 8, 14⟩ ++ "\n\n" :=
  ⟨by decide, (ensure_date_header_append_format "" ⟨2025, 8, 14⟩ (by decide)).2 rfl⟩

/-- C7. `append_lines_under_today` writes each given line followed by
exactly one newline, in the given order: the result is the prior content
(byte-for-byte prefix, unchanged) followed by the concatenation of the
lines each terminated by one `\n`.  Consequently, rendering then
appending to a well-formed (newline-terminated-lines) file and reading
the file back line by line reproduces the rendered lines byte-for-byte,
including the four-space sub-bullet indentation. -/
theorem append_lines_under_today_spec :
    (∀ (c : String) (d : Date) (lines : List String),
      (append_lines_under_today c d lines).data
        = c.data ++ (lines.map fun l => l.data ++ ['\n']).flatten) ∧
    (∀ (c : String) (d : Date) (lines : List String),
      c.data <+: (append_lines_under_today c d lines).data) ∧
    (∀ (c : String) (d : Date) (m : String) (tags : List String)
      (ls0 : List (List Char)),
      c.data = joinT ls0 → (∀ l ∈ ls0, '\n' ∉ l) →
      '\n' ∉ m.data → (∀ t ∈ tags, '\n' ∉ t.data) →
      splitLines (append_lines_under_today c d (render_note_lines m tags).lines).data
        = (splitLines c.data).dropLast
          ++ ((render_note_lines m tags).lines).map String.data ++ [[]]) := by
  have hdata : ∀ (c : String) (d : Date) (lines : List String),
      (append_lines_under_today c d lines).data
        = c.data ++ (lines.map fun l => l.data ++ ['\n']).flatten := by
    intro c d lines
    rw [append_lines_data]
    unfold joinT
    rw [List.map_map]
    rfl
  refine ⟨hdata, ?_, ?_⟩
  · intro c d lines
    exact ⟨_, (hdata c d lines).symm⟩
  · intro c d m tags ls0 hc hls0 hm ht
    have hml : ∀ l ∈ ((render_note_lines m tags).lines).map String.data, '\n' ∉ l := by
      intro l hl
      obtain ⟨line, hline, rfl⟩ := List.mem_map.mp hl
      exact (rendered_lines_ok hm ht line hline).1
    rw [append_lines_data, hc, ← joinT_append]
    rw [splitLines_joinT (by
      intro l hl
      rcases List.mem_append.mp hl with hl | hl
      · exact hls0 l hl
      · exact hml l hl)]
    rw [splitLines_joinT hls0, List.dropLast_concat]

theorem append_lines_under_today_spec_witness :
    (("# 08/14/2025\n\n" : String).data = joinT [['#', ' ', '0', '8', '/', '1', '4',
        '/', '2', '0', '2', '5'], []] ∧
      (∀ l ∈ [['#', ' ', '0', '8', '/', '1', '4', '/', '2', '0', '2', '5'],
        ([] : List Char)], '\n' ∉ l) ∧
      '\n' ∉ ("fix bug" : String).data ∧
      (∀ t ∈ (["DT-1234"] : List String), '\n' ∉ t.data)) ∧
    splitLines (append_lines_under_today "# 08/14/2025\n\n" ⟨2025, 8, 14⟩
        (render_note_lines "fix bug" ["DT-1234"]).lines).data
      = (splitLines ("# 08/14/2025\n\n" : String).data).dropLast
        ++ ((render_note_lines "fix bug" ["DT-1234"]).lines).map String.data ++ [[]] :=
  ⟨⟨by decide, by decide, by decide, by decide⟩,
    append_lines_under_today_spec.2.2 "# 08/14/2025\n\n" ⟨2025, 8, 14⟩ "fix bug"
      ["DT-1234"]
      [['#', ' ', '0', '8', '/', '1', '4', '/', '2', '0', '2', '5'], []]
      (by decide) (by decide) (by decide) (by decide)⟩

/-! `ensure_year_file` (C8) -/

/-- A minimal filesystem: the existing directories (as segment paths)
and the existing files with their contents. -/
structure FS where
  dirs : List (List String)
  files : List (List String × String)

/-- The call `notes_dir.mkdir(parents=True, exist_ok=True)`: add every missing
prefix of the path; directories that already exist are left alone and
cause no error (the operation is total). -/
def addDirs (dirs : List (List String)) (p : List String) : List (List String) :=
  dirs ++ (((List.range p.length).map fun i => p.take (i + 1)).filter
    fun q => !(dirs.contains q))

/-- Function `ensure_year_file` of `jotmd.py` (lines 74-80) on the filesystem
model: create the notes directory tree, create `<year>.md` empty if it
does not exist (`path.touch()`), and return the path. -/
def ensure_year_file (fs : FS) (notes_dir : List String) (dt : Date) : FS × List String :=
  let fs1 : FS := { fs with dirs := addDirs fs.dirs notes_dir }
  let path := notes_dir ++ [natToStr dt.year ++ ".md"]
  if (fs1.files.lookup path).isSome then (fs1, path)
  else ({ fs1 with files := fs1.files ++ [(path, "")] }, path)

theorem mem_addDirs (dirs : List (List String)) (p : List String) {i : Nat}
    (hi : i < p.length) : p.take (i + 1) ∈ addDirs dirs p := by
  unfold addDirs
  by_cases h : dirs.contains (p.take (i + 1)) = true
  · exact List.mem_append.mpr (Or.inl (List.mem_of_elem_eq_true h))
  · apply List.mem_append.mpr
    right
    apply List.mem_filter.mpr
    refine ⟨List.mem_map.mpr ⟨i, List.mem_range.mpr hi, rfl⟩, ?_⟩
    rw [Bool.not_eq_true] at h
    rw [h]
    rfl

theorem addDirs_idem (dirs : List (List String)) (p : List String) :
    addDirs (addDirs dirs p) p = addDirs dirs p := by
  have hnil : (((List.range p.length).map fun i => p.take (i + 1)).filter
      fun q => !((addDirs dirs p).contains q)) = [] := by
    apply List.filter_eq_nil_iff.mpr
    intro q hq
    obtain ⟨i, hi, rfl⟩ := List.mem_map.mp hq
    rw [Bool.not_eq_true', Bool.not_eq_false]
    exact List.elem_eq_true_of_mem (mem_addDirs dirs p (List.mem_range.mp hi))
  show addDirs dirs p ++ _ = addDirs dirs p
  rw [hnil, List.append_nil]

theorem lookup_append {α β : Type _} [BEq α] (l1 l2 : List (α × β)) (k : α) :
    (l1 ++ l2).lookup k = ((l1.lookup k).or (l2.lookup k)) := by
  induction l1 with
  | nil => simp [List.lookup]
  | cons kv l1 ih =>
    rw [List.cons_append, List.lookup, List.lookup]
    by_cases h : (k == kv.1) = true
    · simp [h]
    · rw [Bool.not_eq_true] at h
      simp only [h]
      exact ih

theorem natToStrAux_fuel {fuel1 fuel2 n : Nat} (h1 : n < fuel1) (h2 : n < fuel2) :
    natToStrAux fuel1 n = natToStrAux fuel2 n := by
  induction fuel1 generalizing fuel2 n with
  | zero => omega
  | succ f ih =>
    cases fuel2 with
    | zero => omega
    | succ f2 =>
      rw [natToStrAux, natToStrAux]
      split
      · rfl
      · rename_i hge
        rw [@ih f2 (n / 10) (by omega) (by omega)]

theorem natToStr_length4 {n : Nat} (h1 : 1000 ≤ n) (h2 : n ≤ 9999) :
    (natToStr n).data.length = 4 := by
  have l3 : (natToStrAux (n / 10 / 10 / 10 + 1) (n / 10 / 10 / 10)).length = 1 := by
    rw [natToStrAux, if_pos (by omega)]
    rfl
  have l2 : (natToStrAux (n / 10 / 10 + 1) (n / 10 / 10)).length = 2 := by
    rw [natToStrAux, if_neg (by omega)]
    rw [natToStrAux_fuel (show n / 10 / 10 / 10 < n / 10 / 10 by omega)
      (Nat.lt_succ_self _)]
    rw [List.length_append, l3]
    rfl
  have l1 : (natToStrAux (n / 10 + 1) (n / 10)).length = 3 := by
    rw [natToStrAux, if_neg (by omega)]
    rw [natToStrAux_fuel (show n / 10 / 10 < n / 10 by omega) (Nat.lt_succ_self _)]
    rw [List.length_append, l2]
    rfl
  show (natToStrAux (n + 1) n).length = 4
  rw [natToStrAux, if_neg (by omega)]
  rw [natToStrAux_fuel (show n / 10 < n by omega) (Nat.lt_succ_self _)]
  rw [List.length_append, l1]
  rfl

/-- C8 (counterexample). The returned file name is not always
`<4-digit-year>.md`: `datetime` admits every year from 1 to 9999, and
for the valid date 02 Jan 999 the file is named `999.md` (three
digits). -/
theorem ensure_year_file_counterexample :
    Date.Valid ⟨999, 1, 2⟩ ∧
      ¬ ∃ y4 : String, (ensure_year_file ⟨[], []⟩ ["notes"] ⟨999, 1, 2⟩).2
          = ["notes", y4 ++ ".md"] ∧ y4.data.length = 4 := by
  constructor
  · exact ⟨by decide, by decide, by decide, by decide, by decide, by decide⟩
  · rintro ⟨y4, hpath, hlen⟩
    have hp : (ensure_year_file ⟨[], []⟩ ["notes"] ⟨999, 1, 2⟩).2
        = ["notes", "999.md"] := by decide
    rw [hp] at hpath
    have h2 : ("999.md" : String) = y4 ++ ".md" := by
      injection hpath with h2a h2b
      injection h2b with h2c h2d
    have h3 := congrArg (fun s : String => s.data.length) h2
    simp only [String.data_append, List.length_append] at h3
    rw [hlen] at h3
    simp at h3

theorem ensure_year_file_idem (fs : FS) (nd : List String) (d : Date) :
    ensure_year_file (ensure_year_file fs nd d).1 nd d = ensure_year_file fs nd d := by
  obtain ⟨dirs, files⟩ := fs
  simp only [ensure_year_file]
  by_cases h : ((files.lookup (nd ++ [natToStr d.year ++ ".md"])).isSome) = true
  · rw [if_pos h, if_pos h, addDirs_idem]
  · rw [if_neg h]
    have hnone : files.lookup (nd ++ [natToStr d.year ++ ".md"]) = none := by
      cases hl : files.lookup (nd ++ [natToStr d.year ++ ".md"]) with
      | none => rfl
      | some v => rw [hl] at h; simp at h
    have hfound : (((files ++ [(nd ++ [natToStr d.year ++ ".md"], "")]).lookup
        (nd ++ [natToStr d.year ++ ".md"])).isSome) = true := by
      rw [lookup_append, hnone]
      simp [List.lookup]
    rw [if_pos hfound, addDirs_idem]

/-- C8 (amended). `ensure_year_file` computes
`filePath = notesDir/<year>.md` with the year rendered in decimal (four
digits exactly when `1000 ≤ year ≤ 9999`, but fewer for the smaller
years `datetime` also admits), creates the notes directory tree
idempotently and without error when it already exists, creates
`filePath` as an empty file iff it does not already exist, and returns
that path; the whole operation is idempotent. -/
theorem ensure_year_file_spec :
    (∀ (fs : FS) (nd : List String) (d : Date),
      (ensure_year_file fs nd d).2 = nd ++ [natToStr d.year ++ ".md"]) ∧
    (∀ (dirs : List (List String)) (p : List String),
      addDirs (addDirs dirs p) p = addDirs dirs p) ∧
    (∀ (fs : FS) (nd : List String) (d : Date),
      (fs.files.lookup (nd ++ [natToStr d.year ++ ".md"])).isSome = true →
      ((ensure_year_file fs nd d).1).files = fs.files) ∧
    (∀ (fs : FS) (nd : List String) (d : Date),
      (fs.files.lookup (nd ++ [natToStr d.year ++ ".md"])).isSome = false →
      ((ensure_year_file fs nd d).1).files
        = fs.files ++ [(nd ++ [natToStr d.year ++ ".md"], "")]) ∧
    (∀ (fs : FS) (nd : List String) (d : Date),
      ensure_year_file (ensure_year_file fs nd d).1 nd d = ensure_year_file fs nd d) ∧
    (∀ d : Date, 1000 ≤ d.year → d.year ≤ 9999 →
      (natToStr d.year).data.length = 4) := by
  refine ⟨?_, addDirs_idem, ?_, ?_, ensure_year_file_idem, ?_⟩
  · intro fs nd d
    simp only [ensure_year_file]
    split
    · rfl
    · rfl
  · intro fs nd d h
    obtain ⟨dirs, files⟩ := fs
    simp only [ensure_year_file]
    rw [if_pos h]
  · intro fs nd d h
    obtain ⟨dirs, files⟩ := fs
    simp only [ensure_year_file]
    rw [if_neg (by rw [h]; simp)]
  · intro d h1 h2
    exact natToStr_length4 h1 h2

theorem ensure_year_file_spec_witness :
    (((FS.mk [] []).files.lookup
        (["notes"] ++ [natToStr (Date.mk 2025 8 14).year ++ ".md"])).isSome = false) ∧
      ((ensure_year_file (FS.mk [] []) ["notes"] (Date.mk 2025 8 14)).1).files
        = (FS.mk [] []).files
          ++ [((["notes"] ++ [natToStr (Date.mk 2025 8 14).year ++ ".md"]), "")] ∧
      1000 ≤ (Date.mk 2025 8 14).year ∧
      (natToStr (Date.mk 2025 8 14).year).data.length = 4 :=
  ⟨by decide,
    ensure_year_file_spec.2.2.2.1 (FS.mk [] []) ["notes"] (Date.mk 2025 8 14) (by decide),
    by decide,
    ensure_year_file_spec.2.2.2.2.2 (Date.mk 2025 8 14) (by decide) (by decide)⟩

/-- C4. Tag classification is pure and total, and each tag is exactly
one of the two variants: it is ticket-like precisely when its whole text
matches the shape two-or-more uppercase letters, a hyphen, one-or-more
digits (the regex `[A-Z]{2,}-\d+` under `fullmatch`), and person-like
otherwise. -/
theorem is_ticket_classification (tag : String) :
    (is_ticket tag = true ↔ TicketShape tag) ∧
    (is_ticket tag = false ↔ ¬ TicketShape tag) := by
  refine ⟨is_ticket_iff_ticketShape tag, ?_⟩
  rw [← is_ticket_iff_ticketShape tag]
  cases h : is_ticket tag <;> simp
